import Mathlib

/-!
Verification of the hybrid retrieval fusion engine of
`Retriever_Development/v4/hybrid_retriever_v4.py` (class `HybridRetrieverV4`).

Shallow embedding conventions:
* Document ids are strings (`DocId`), as in the Chroma/BM25 indexes.
* Python floats are modelled as exact rationals (`ℚ`); all score arithmetic in
  the source (`1.0/(k+rank)`, sums, min–max normalisation, `λ·rel − (1−λ)·pen`)
  is plain field arithmetic, so the rational model tracks the float code except
  for rounding, which no claim here depends on.
* Python `dict`s are modelled as insertion-ordered association lists with
  unique keys (`alookup` / `dictSet` reproduce `d.get` / `d[k] = v`).
* Python `set` iteration order (used for `all_ids` in `_rrf_fuse`) is not a
  function of the set's contents; it is modelled as an explicit enumeration
  parameter constrained by `ValidSetOrder`.
* The Chroma collection is modelled by two read-only views:
  `embStore : DocId → Option (List ℚ)` (`collection.get(include=["embeddings"])`,
  absent ids yield no entry) and `docStore : DocId → Option (String × Meta)`
  (`collection.get(include=["documents","metadatas"])`).  Batched fetching
  (`max_get_batch`) only chunks the id list and does not change which entries
  are found, so both fetch helpers are modelled as a single pass.
* `np.argmax`, `np.max`, min–max normalisation and Python's stable `sorted` /
  `list.sort` are modelled by `argmaxIdx`, `listMaxQ`, and the stable insertion
  sort `pySorted`.
* The cosine similarity matrix `_cosine_sim_matrix` involves real square roots
  (row norms); no claim depends on its numeric values, so the matrix is an
  abstract parameter `simOf : List (List ℚ) → Nat → Nat → ℚ` applied to the
  hydrated embedding matrix, with the bound `simOf E i j ≤ 1` (true of cosine
  similarities) taken as a hypothesis where a proof needs it.
* Raised Python exceptions are modelled by `Except String`; `retrieve` takes
  the outcomes of `_dense_search` / `_sparse_search` as `Except` values because
  the source calls them without any `try`/`except`.
-/

abbrev DocId := String

/-- Metadata of a document, an opaque key-value map. -/
abbrev Meta := List (String × String)

/-- First-match association-list lookup; models Python `dict` lookup
(keys are unique in every dict built below). -/
def alookup {β : Type} : List (DocId × β) → DocId → Option β
  | [], _ => none
  | p :: rest, key => if p.1 = key then some p.2 else alookup rest key

/-- Python `d[key] = v` on an insertion-ordered dict: overwrite in place if the
key is present, else append the new binding. -/
def dictSet {β : Type} (d : List (DocId × β)) (key : DocId) (v : β) : List (DocId × β) :=
  if (alookup d key).isSome then
    d.map (fun p => if p.1 = key then (p.1, v) else p)
  else
    d ++ [(key, v)]

/-- The rank-dictionary loop of `_rrf_fuse` (lines 227–233):
`for i, (doc_id, _) in enumerate(results, start=1): rank[doc_id] = min(i, rank.get(doc_id, i))`. -/
def buildRankFrom : List (DocId × ℚ) → Nat → List (DocId × Nat) → List (DocId × Nat)
  | [], _, d => d
  | p :: rest, i, d => buildRankFrom rest (i + 1) (dictSet d p.1 (min i ((alookup d p.1).getD i)))

/-- Rank dictionary (1-based) for one branch result list. -/
def buildRank (results : List (DocId × ℚ)) : List (DocId × Nat) :=
  buildRankFrom results 1 []

/-- Model of `HybridRetrieverV4._rrf`: convert 1-based rank positions to RRF scores,
`{doc_id: 1.0 / (k + rank) for doc_id, rank in scores_by_id.items()}`. -/
def rrf (scores_by_id : List (DocId × Nat)) (k : Nat) : List (DocId × ℚ) :=
  scores_by_id.map (fun p => (p.1, 1 / ((k : ℚ) + (p.2 : ℚ))))

/-- Key list whose members are `set(dense_rank) | set(sparse_rank)`
(membership only; Python set iteration order is a separate parameter). -/
def unionKeys (dense_results sparse_results : List (DocId × ℚ)) : List DocId :=
  (buildRank dense_results).map Prod.fst ++ (buildRank sparse_results).map Prod.fst

/-- Property: `order` is a possible iteration order of the Python set
`all_ids = set(dense_rank) | set(sparse_rank)`: an enumeration, without
repetition, of exactly the keys of the two rank dicts. -/
def ValidSetOrder (dense_results sparse_results : List (DocId × ℚ)) (order : List DocId) : Prop :=
  order.Nodup ∧ (∀ id ∈ order, id ∈ unionKeys dense_results sparse_results) ∧
    (∀ id ∈ unionKeys dense_results sparse_results, id ∈ order)

/-- Model of `HybridRetrieverV4._rrf_fuse`: build both rank dicts, convert each to RRF
scores, and sum the two contributions (`.get(doc_id, 0.0)`) over
`all_ids = set(dense_rank) | set(sparse_rank)`, whose iteration order is the
parameter `order`. -/
def rrf_fuse (dense_results sparse_results : List (DocId × ℚ)) (k : Nat)
    (order : List DocId) : List (DocId × ℚ) :=
  let dense_rrf := rrf (buildRank dense_results) k
  let sparse_rrf := rrf (buildRank sparse_results) k
  order.map (fun doc_id =>
    (doc_id, ((alookup dense_rrf doc_id).getD 0) + ((alookup sparse_rrf doc_id).getD 0)))

/-- Stable insertion step: place `x` immediately before the first element `y`
with `before x y`; `x` goes after every earlier element it does not strictly
precede, which is exactly the stability contract of Python's sort. -/
def pyInsert {α : Type} (before : α → α → Bool) (x : α) : List α → List α
  | [] => [x]
  | y :: ys => if before x y then x :: y :: ys else y :: pyInsert before x ys

def pySortedAux {α : Type} (before : α → α → Bool) : List α → List α → List α
  | [], acc => acc
  | x :: xs, acc => pySortedAux before xs (pyInsert before x acc)

/-- Python's stable sort (`sorted` / `list.sort`) with strict precedence test
`before`; extensionally equal to timsort for any strict weak order. -/
def pySorted {α : Type} (before : α → α → Bool) (l : List α) : List α :=
  pySortedAux before l []

/-- Precedence test of `sorted(fused_scores.items(), key=lambda x: x[1], reverse=True)`. -/
def scoreDescBefore (a b : DocId × ℚ) : Bool := decide (b.2 < a.2)

/-- Model of `retrieve` line 146: the fused candidate ids in descending fused-score
order (stable w.r.t. the fused dict's insertion order). -/
def rankedIdsOf (fused : List (DocId × ℚ)) : List DocId :=
  (pySorted scoreDescBefore fused).map Prod.fst

/-- Model of `np.min` of a nonempty float array (the `[]` case is never used). -/
def listMinQ : List ℚ → ℚ
  | [] => 0
  | x :: xs => xs.foldl min x

/-- Model of `np.max` of a nonempty float array (the `[]` case is never used). -/
def listMaxQ : List ℚ → ℚ
  | [] => 0
  | x :: xs => xs.foldl max x

def argmaxAux : List ℚ → Nat → Nat → ℚ → Nat
  | [], _, bi, _ => bi
  | x :: xs, i, bi, bv => if bv < x then argmaxAux xs (i + 1) i x else argmaxAux xs (i + 1) bi bv

/-- Model of `np.argmax`: index of the first occurrence of the maximum. -/
def argmaxIdx : List ℚ → Nat
  | [] => 0
  | x :: xs => argmaxAux xs 1 0 x

/-- Embedding hydration loop of `_mmr_select` (lines 279–285): fetch each
candidate's embedding from the collection, in candidate order; an id absent
from the index has no entry in `id_to_emb`, so `id_to_emb[i]` raises
`KeyError`.  Chunking into `max_get_batch`-sized batches does not change the
result and is collapsed into one pass. -/
def hydrate (embStore : DocId → Option (List ℚ)) : List DocId → Except String (List (List ℚ))
  | [] => .ok []
  | id :: rest =>
    match embStore id with
    | none => .error "KeyError"
    | some e => (hydrate embStore rest).map (fun es => e :: es)

/-- Model of `np.array(embeddings, dtype=float)` on a list of rows: a 2-D array when the
rows agree in length (`some` rows), a 1-D empty array for no rows (`none`, the
`ndim != 2` case), and a `ValueError` for ragged rows (numpy ≥ 1.24 rejects
inhomogeneous shapes). -/
def npArray : List (List ℚ) → Except String (Option (List (List ℚ)))
  | [] => .ok none
  | r :: rest =>
    if rest.all (fun r2 => r2.length == r.length) then .ok (some (r :: rest))
    else .error "ValueError"

/-- Python `l[:k]` for an `int` bound `k` (negative bounds count from the end). -/
def pySlice {α : Type} (l : List α) (k : Int) : List α :=
  if 0 ≤ k then l.take k.toNat else l.take (l.length - (-k).toNat)

/-- Body of the inner loop of `_mmr_select` (lines 307–314): given the best
candidate so far, consider `idx`, computing
`mmr_val = λ·rel[idx] − (1−λ)·max(sim[idx, selected])` (the penalty is `0.0`
when nothing is selected yet) and keeping the strictly better one. -/
def mmrStep (relF : Nat → ℚ) (sim : Nat → Nat → ℚ) (lambda_mult : ℚ) (selected : List Nat)
    (best : Option Nat × ℚ) (idx : Nat) : Option Nat × ℚ :=
  let penalty : ℚ := if selected.isEmpty then 0 else listMaxQ (selected.map (fun j => sim idx j))
  let mmr_val := lambda_mult * relF idx - (1 - lambda_mult) * penalty
  if best.2 < mmr_val then (some idx, mmr_val) else best

/-- Inner loop of `_mmr_select` (lines 304–314): scan the remaining candidate
indices; `best_idx` starts as `None` and `best_val` as `-1e9`. -/
def bestCandidate (relF : Nat → ℚ) (sim : Nat → Nat → ℚ) (lambda_mult : ℚ)
    (selected cands : List Nat) : Option Nat × ℚ :=
  cands.foldl (mmrStep relF sim lambda_mult selected) (none, -(10 ^ 9 : ℚ))

/-- Greedy selection loop of `_mmr_select` (lines 303–316):
`while len(selected) < min(k, len(ranked_ids)) and candidate_idxs:` pick the
best candidate, append it and remove it from the pool.  If no candidate beats
`-1e9` then `best_idx` stays `None` and `candidate_idxs.remove(None)` raises.
The fuel argument (initially the number of candidates) bounds the iteration
count: each pass removes one candidate, so the Python loop makes at most
`len(candidate_idxs)` passes and the fuel is never exhausted first. -/
def mmrLoop (relF : Nat → ℚ) (sim : Nat → Nat → ℚ) (lambda_mult : ℚ) (k : Int) (n : Nat) :
    Nat → List Nat → List Nat → Except String (List Nat)
  | 0, selected, _ => .ok selected
  | fuel + 1, selected, cands =>
    if (selected.length : Int) < min k (n : Int) ∧ cands ≠ [] then
      match bestCandidate relF sim lambda_mult selected cands with
      | (some b, _) => mmrLoop relF sim lambda_mult k n fuel (selected ++ [b]) (cands.erase b)
      | (none, _) => .error "ValueError"
    else .ok selected

/-- Line 269: `rel = np.array([rel_scores.get(doc_id, 0.0) for doc_id in ranked_ids])`. -/
def relRawOf (ranked_ids : List DocId) (rel_scores : List (DocId × ℚ)) : List ℚ :=
  ranked_ids.map (fun doc_id => (alookup rel_scores doc_id).getD 0)

/-- Lines 272–276: min–max normalisation of the relevance vector; all-equal
scores normalise to zero. -/
def normalizeRel (relRaw : List ℚ) : List ℚ :=
  if listMinQ relRaw < listMaxQ relRaw then
    relRaw.map (fun r => (r - listMinQ relRaw) / (listMaxQ relRaw - listMinQ relRaw))
  else relRaw.map (fun _ => (0 : ℚ))

/-- Model of `HybridRetrieverV4._mmr_select`.  Parameters beyond the source signature:
`embStore` is the collection's embedding view and `simOf` abstracts
`_cosine_sim_matrix` applied to the hydrated embedding matrix. -/
def mmr_select (embStore : DocId → Option (List ℚ)) (simOf : List (List ℚ) → Nat → Nat → ℚ)
    (ranked_ids : List DocId) (rel_scores : List (DocId × ℚ)) (k : Int) (lambda_mult : ℚ) :
    Except String (List DocId) :=
  if ranked_ids.isEmpty then .ok []
  else
    let relRaw := relRawOf ranked_ids rel_scores
    if relRaw.isEmpty then .ok []
    else
      let rel := normalizeRel relRaw
      match hydrate embStore ranked_ids with
      | .error e => .error e
      | .ok embs =>
        match npArray embs with
        | .error e => .error e
        | .ok none => .ok (pySlice ranked_ids k)
        | .ok (some E) =>
          if E.length ≠ ranked_ids.length then .ok (pySlice ranked_ids k)
          else
            let sim := simOf E
            let relF : Nat → ℚ := fun i => rel.getD i 0
            let first := argmaxIdx rel
            let cands := (List.range ranked_ids.length).erase first
            match mmrLoop relF sim lambda_mult k ranked_ids.length cands.length [first] cands with
            | .error e => .error e
            | .ok sel => .ok (sel.map (fun i => ranked_ids.getD i ""))

/-- The externally visible record `{id, score, document, metadata}`. -/
structure RetrievalResult where
  id : DocId
  score : ℚ := 0
  document : String := ""
  metadata : Meta := []
deriving DecidableEq, Repr

/-- Model of `HybridRetrieverV4._get_documents_by_ids`: fetch documents and metadata,
iterating over the requested ids with `doc_map.get(i, "")` and
`meta_map.get(i, {})` defaults (an id absent from the collection therefore
produces a record with empty document and metadata).  Batch chunking is
collapsed as for `hydrate`. -/
def get_documents_by_ids (docStore : DocId → Option (String × Meta)) (ids : List DocId) :
    List RetrievalResult :=
  ids.map (fun i =>
    { id := i
      score := 0
      document := ((docStore i).map Prod.fst).getD ""
      metadata := ((docStore i).map Prod.snd).getD [] })

/-- Model of the dict comprehension over `enumerate(selected_ids)` that maps
each selected doc id to its selection position (retrieve line 156). -/
def buildPosDictFrom : List DocId → Nat → List (DocId × Nat) → List (DocId × Nat)
  | [], _, d => d
  | id :: rest, i, d => buildPosDictFrom rest (i + 1) (dictSet d id i)

def buildPosDict (selected_ids : List DocId) : List (DocId × Nat) :=
  buildPosDictFrom selected_ids 0 []

/-- Sort key of `final_payload.sort(key=lambda d: id_to_pos.get(d["id"], 10**9))`. -/
def posKey (id_to_pos : List (DocId × Nat)) (r : RetrievalResult) : Nat :=
  (alookup id_to_pos r.id).getD (10 ^ 9)

/-- Steps 5 of `retrieve` (lines 149–158): hydrate the selected ids into
payload records, attach the fused score, and stable-sort by MMR position. -/
def finalizePayload (docStore : DocId → Option (String × Meta))
    (fused_scores : List (DocId × ℚ)) (selected_ids : List DocId) : List RetrievalResult :=
  let final_payload := get_documents_by_ids docStore selected_ids
  let withScore := final_payload.map (fun it => { it with score := (alookup fused_scores it.id).getD 0 })
  let id_to_pos := buildPosDict selected_ids
  pySorted (fun a b => decide (posKey id_to_pos a < posKey id_to_pos b)) withScore

/-- Model of `RetrieverConfig` (fusion/post-processing fields used by `retrieve`). -/
structure RetrieverConfig where
  rrf_k : Nat := 60
  candidate_pool : Nat := 40
  mmr_lambda : ℚ := 7 / 10
  final_k : Int := 10
  max_get_batch : Nat := 256

/-- Model of `HybridRetrieverV4.retrieve`.  Here `dense_res` / `sparse_res` are the outcomes
of `self._dense_search` / `self._sparse_search` for this query — the source
calls them with no `try`/`except`, so an exception in either propagates via
`Except.bind` exactly as it propagates out of `retrieve` in Python.
`set_order` is the iteration order of `set(dense_rank) | set(sparse_rank)`
inside `_rrf_fuse`.  `k = none` models the Python default `k=None`; the source
computes `final_k = k or self.cfg.final_k`, so both `None` and `0` fall back to
the configured default. -/
def retrieve (embStore : DocId → Option (List ℚ)) (docStore : DocId → Option (String × Meta))
    (simOf : List (List ℚ) → Nat → Nat → ℚ) (cfg : RetrieverConfig)
    (dense_res sparse_res : Except String (List (DocId × ℚ)))
    (set_order : List DocId) (k : Option Int) : Except String (List RetrievalResult) := do
  let final_k : Int := match k with
    | none => cfg.final_k
    | some v => if v = 0 then cfg.final_k else v
  let dense ← dense_res
  let sparse ← sparse_res
  let fused_scores := rrf_fuse dense sparse cfg.rrf_k set_order
  let ranked_ids := rankedIdsOf fused_scores
  let selected_ids ← mmr_select embStore simOf ranked_ids fused_scores final_k cfg.mmr_lambda
  .ok (finalizePayload docStore fused_scores selected_ids)

/-! ### Concrete inputs used by witnesses and counterexamples -/

/-- Sparse branch of the spec's concrete RRF scenario: `[(A,1),(B,2),(C,3)]`
(ranks are list positions; the raw scores are ignored by `_rrf_fuse`). -/
def sparse2 : List (DocId × ℚ) := [("A", 0), ("B", 0), ("C", 0)]

/-- Dense branch of the spec's concrete RRF scenario: `[(B,1),(D,2),(A,3)]`. -/
def dense2 : List (DocId × ℚ) := [("B", 0), ("D", 0), ("A", 0)]

/-- One-element dense branch for the tie-break scenario. -/
def dense3 : List (DocId × ℚ) := [("B", 0)]

/-- One-element sparse branch for the tie-break scenario; `A` and `B` then tie
with fused score `1/61` each. -/
def sparse3 : List (DocId × ℚ) := [("A", 0)]

/-- A collection holding 2-dimensional embeddings for ids `a` and `b` only. -/
def embStore0 : DocId → Option (List ℚ) := fun id =>
  if id = "a" then some [1, 0] else if id = "b" then some [0, 1] else none

/-- Documents and metadata for ids `a` and `b` only. -/
def docStore0 : DocId → Option (String × Meta) := fun id =>
  if id = "a" then some ("doc a", []) else if id = "b" then some ("doc b", []) else none

/-- A concrete similarity oracle (identically zero, trivially bounded by 1). -/
def simOf0 : List (List ℚ) → Nat → Nat → ℚ := fun _ _ _ => 0

/-- The default configuration. -/
def cfg0 : RetrieverConfig := {}

/-- A configuration whose default result count is 1, to make the silent
`k or cfg.final_k` substitution observable. -/
def cfg1 : RetrieverConfig := { final_k := 1 }

/-- A branch list that mentions id `A` twice (positions 1 and 3). -/
def results10 : List (DocId × ℚ) := [("A", 5), ("B", 3), ("A", 9)]

/-- One RRF contribution at `k_rrf = 60` and 1-based rank `r`, in the exact
cast form produced by `rrf`. -/
def rrfTerm (r : Nat) : ℚ := 1 / (((60 : Nat) : ℚ) + ((r : Nat) : ℚ))

instance (dense_results sparse_results : List (DocId × ℚ)) (order : List DocId) :
    Decidable (ValidSetOrder dense_results sparse_results order) := by
  unfold ValidSetOrder
  infer_instance

/-! ### Association-list helper lemmas -/

/-- First-defined-wins choice, used to state lookup lemmas. -/
def optOr {β : Type} : Option β → Option β → Option β
  | some v, _ => some v
  | none, o => o

/-- First index of `x` in a list of ids (earliest occurrence). -/
def firstIdx : List DocId → DocId → Nat
  | [], _ => 0
  | y :: ys, x => if y = x then 0 else 1 + firstIdx ys x

theorem alookup_append {β : Type} (d₁ d₂ : List (DocId × β)) (x : DocId) :
    alookup (d₁ ++ d₂) x = optOr (alookup d₁ x) (alookup d₂ x) := by
  induction d₁ with
  | nil => simp [alookup, optOr]
  | cons p rest ih =>
    by_cases h : p.1 = x <;> simp [alookup, h, ih, optOr]

theorem alookup_isSome_iff {β : Type} (d : List (DocId × β)) (x : DocId) :
    (alookup d x).isSome ↔ x ∈ d.map Prod.fst := by
  induction d with
  | nil => simp [alookup]
  | cons p rest ih =>
    simp only [alookup, List.map_cons, List.mem_cons]
    by_cases h : p.1 = x
    · simp [h]
    · have hx : ¬ x = p.1 := fun hh => h hh.symm
      simp [h, hx, ih]

theorem alookup_eq_none_iff {β : Type} (d : List (DocId × β)) (x : DocId) :
    alookup d x = none ↔ x ∉ d.map Prod.fst := by
  rw [← alookup_isSome_iff, Option.not_isSome_iff_eq_none]

theorem map_fst_overwrite {β : Type} (d : List (DocId × β)) (key : DocId) (v : β) :
    (d.map (fun p => if p.1 = key then (p.1, v) else p)).map Prod.fst = d.map Prod.fst := by
  induction d with
  | nil => rfl
  | cons p rest ih => by_cases h : p.1 = key <;> simp [h, ih]

theorem keys_dictSet {β : Type} (d : List (DocId × β)) (key : DocId) (v : β) :
    (dictSet d key v).map Prod.fst =
      if (alookup d key).isSome then d.map Prod.fst else d.map Prod.fst ++ [key] := by
  unfold dictSet
  by_cases h : (alookup d key).isSome
  · rw [if_pos h, if_pos h]
    exact map_fst_overwrite d key v
  · rw [if_neg h, if_neg h]
    simp

theorem keysNodup_dictSet {β : Type} (d : List (DocId × β)) (key : DocId) (v : β)
    (h : (d.map Prod.fst).Nodup) : ((dictSet d key v).map Prod.fst).Nodup := by
  rw [keys_dictSet]
  by_cases hs : (alookup d key).isSome
  · simpa [hs] using h
  · have hk2 : key ∉ d.map Prod.fst := by
      rw [← alookup_isSome_iff]
      simpa using hs
    simp only [hs, if_neg, Bool.false_eq_true, ite_false]
    refine List.Nodup.append h (List.nodup_singleton key) ?_
    intro a ha hb
    rw [List.mem_singleton] at hb
    exact hk2 (hb ▸ ha)

theorem dictSet_of_alookup_eq {β : Type} (d : List (DocId × β)) (key : DocId) (v : β)
    (hk : (d.map Prod.fst).Nodup) (hv : alookup d key = some v) :
    dictSet d key v = d := by
  unfold dictSet
  rw [hv]
  simp only [Option.isSome_some, if_true]
  induction d with
  | nil => simp
  | cons p rest ih =>
    simp only [List.map_cons, List.nodup_cons] at hk
    by_cases h : p.1 = key
    · have hv2 : p.2 = v := by
        have hh : alookup (p :: rest) key = some p.2 := by simp [alookup, h]
        exact Option.some.inj (hh.symm.trans hv)
      have hknotin : ∀ q ∈ rest, (if q.1 = key then (q.1, v) else q) = q := by
        intro q hq
        have hqk : ¬ q.1 = key := by
          intro hqe
          apply hk.1
          rw [h, ← hqe]
          exact List.mem_map_of_mem Prod.fst hq
        simp [hqk]
      rw [List.map_cons]
      have hhead : (if p.1 = key then (p.1, v) else p) = p := by
        rw [if_pos h, ← hv2]
      rw [hhead, List.map_congr_left hknotin]
      simp
    · simp only [alookup, if_neg h] at hv
      rw [List.map_cons, if_neg h, ih hk.2 hv]

theorem mem_of_alookup_eq_some {β : Type} {d : List (DocId × β)} {x : DocId} {v : β}
    (h : alookup d x = some v) : (x, v) ∈ d := by
  induction d with
  | nil => simp [alookup] at h
  | cons p rest ih =>
    by_cases hp : p.1 = x
    · simp only [alookup, if_pos hp] at h
      have : v = p.2 := (Option.some.inj h).symm
      subst this
      rw [← hp]
      exact List.mem_cons_self p rest
    · simp only [alookup, if_neg hp] at h
      exact List.mem_cons_of_mem p (ih h)

theorem mem_dictSet {β : Type} {d : List (DocId × β)} {key : DocId} {v : β} {q : DocId × β}
    (h : q ∈ dictSet d key v) : q ∈ d ∨ q = (key, v) := by
  unfold dictSet at h
  by_cases hs : (alookup d key).isSome
  · rw [if_pos hs] at h
    obtain ⟨p, hp, hq⟩ := List.mem_map.mp h
    by_cases hpk : p.1 = key
    · right
      rw [← hq, if_pos hpk, hpk]
    · left
      rw [← hq, if_neg hpk]
      exact hp
  · rw [if_neg hs] at h
    rcases List.mem_append.mp h with h | h
    · exact Or.inl h
    · exact Or.inr (List.mem_singleton.mp h)

theorem alookup_buildRankFrom (l : List (DocId × ℚ)) :
    ∀ (i : Nat) (d : List (DocId × Nat)),
      (∀ p ∈ d, p.2 ≤ i) → ((d.map Prod.fst).Nodup) → ∀ x,
      alookup (buildRankFrom l i d) x =
        optOr (alookup d x)
          (if x ∈ l.map Prod.fst then some (i + firstIdx (l.map Prod.fst) x) else none) := by
  induction l with
  | nil =>
    intro i d hv hk x
    simp only [buildRankFrom, List.map_nil, List.not_mem_nil, if_neg, ite_false]
    cases alookup d x <;> rfl
  | cons p rest ih =>
    intro i d hv hk x
    simp only [buildRankFrom]
    by_cases hmem : (alookup d p.1).isSome
    · obtain ⟨cur, hcur⟩ := Option.isSome_iff_exists.mp hmem
      have hle : cur ≤ i := hv (p.1, cur) (mem_of_alookup_eq_some hcur)
      have hset : dictSet d p.1 (min i ((alookup d p.1).getD i)) = d := by
        rw [hcur]
        simp only [Option.getD_some]
        rw [min_eq_right hle]
        exact dictSet_of_alookup_eq d p.1 cur hk hcur
      rw [hset]
      rw [ih (i + 1) d (fun q hq => Nat.le_succ_of_le (hv q hq)) hk x]
      cases halx : alookup d x with
      | some v => rfl
      | none =>
        have hxne : ¬ p.1 = x := by
          intro he
          rw [he] at hmem
          rw [halx] at hmem
          simp at hmem
        have hxne' : ¬ x = p.1 := fun he => hxne he.symm
        simp only [optOr, List.map_cons, List.mem_cons, firstIdx, hxne', if_neg hxne, false_or]
        by_cases hr : x ∈ rest.map Prod.fst
        · simp only [hr, if_true]
          congr 1
          omega
        · simp [hr]
    · have hnone : alookup d p.1 = none := Option.not_isSome_iff_eq_none.mp hmem
      have hset : dictSet d p.1 (min i ((alookup d p.1).getD i)) = d ++ [(p.1, i)] := by
        rw [hnone]
        simp only [Option.getD_none, min_self]
        unfold dictSet
        rw [hnone]
        simp
      rw [hset]
      have hv' : ∀ q ∈ d ++ [(p.1, i)], q.2 ≤ i + 1 := by
        intro q hq
        rcases List.mem_append.mp hq with h | h
        · exact Nat.le_succ_of_le (hv q h)
        · rw [List.mem_singleton.mp h]
          exact Nat.le_succ i
      have hk' : ((d ++ [(p.1, i)]).map Prod.fst).Nodup := by
        have hk2 : p.1 ∉ d.map Prod.fst := by
          rw [← alookup_isSome_iff]
          simp [hnone]
        rw [List.map_append]
        refine List.Nodup.append hk (by simp) ?_
        intro a ha hb
        simp only [List.map_cons, List.map_nil, List.mem_singleton] at hb
        exact hk2 (hb ▸ ha)
      rw [ih (i + 1) (d ++ [(p.1, i)]) hv' hk' x]
      rw [alookup_append]
      have hsingle : alookup [(p.1, i)] x = if p.1 = x then some i else none := by
        simp [alookup]
      rw [hsingle]
      cases halx : alookup d x with
      | some v => rfl
      | none =>
        by_cases hxp : p.1 = x
        · have hxp' : x = p.1 := hxp.symm
          simp only [optOr, if_pos hxp, List.map_cons, List.mem_cons, hxp', true_or, if_true,
            firstIdx, if_pos hxp]
          simp
        · have hxp' : ¬ x = p.1 := fun he => hxp he.symm
          simp only [optOr, if_neg hxp, List.map_cons, List.mem_cons, hxp', false_or, firstIdx]
          by_cases hr : x ∈ rest.map Prod.fst
          · simp only [hr, if_pos, if_true, if_neg hxp]
            congr 1
            omega
          · simp [hr]

theorem alookup_buildRank (results : List (DocId × ℚ)) (x : DocId) :
    alookup (buildRank results) x =
      if x ∈ results.map Prod.fst then some (1 + firstIdx (results.map Prod.fst) x) else none := by
  have h := alookup_buildRankFrom results 1 [] (by simp) (by simp) x
  simpa [buildRank, alookup, optOr] using h

theorem mem_keys_buildRank (results : List (DocId × ℚ)) (x : DocId) :
    x ∈ (buildRank results).map Prod.fst ↔ x ∈ results.map Prod.fst := by
  rw [← alookup_isSome_iff, alookup_buildRank]
  by_cases h : x ∈ results.map Prod.fst <;> simp [h]

theorem alookup_rrf (d : List (DocId × Nat)) (k : Nat) (x : DocId) :
    alookup (rrf d k) x = (alookup d x).map (fun r => 1 / ((k : ℚ) + (r : ℚ))) := by
  induction d with
  | nil => simp [alookup, rrf]
  | cons p rest ih =>
    by_cases h : p.1 = x
    · simp [alookup, rrf, h]
    · simpa [alookup, rrf, h] using ih

theorem rrf_contribution_nonneg (d : List (DocId × Nat)) (k : Nat) (x : DocId) :
    0 ≤ (alookup (rrf d k) x).getD 0 := by
  rw [alookup_rrf]
  cases h : alookup d x with
  | none => simp
  | some r =>
    show (0 : ℚ) ≤ 1 / ((k : ℚ) + (r : ℚ))
    positivity

/-! ### Stable sort (`pySorted`) lemmas -/

theorem pyInsert_perm {α : Type} (before : α → α → Bool) (x : α) (l : List α) :
    List.Perm (pyInsert before x l) (x :: l) := by
  induction l with
  | nil => exact List.Perm.refl _
  | cons y ys ih =>
    unfold pyInsert
    by_cases h : before x y
    · rw [if_pos h]
    · rw [if_neg h]
      exact (ih.cons y).trans (List.Perm.swap x y ys)

theorem pySortedAux_perm {α : Type} (before : α → α → Bool) :
    ∀ (l acc : List α), List.Perm (pySortedAux before l acc) (acc ++ l) := by
  intro l
  induction l with
  | nil => intro acc; simp [pySortedAux]
  | cons x xs ih =>
    intro acc
    unfold pySortedAux
    refine (ih _).trans ?_
    refine ((pyInsert_perm before x acc).append_right xs).trans ?_
    simpa using List.perm_middle.symm

theorem pySorted_perm {α : Type} (before : α → α → Bool) (l : List α) :
    List.Perm (pySorted before l) l := by
  simpa [pySorted] using pySortedAux_perm before l []

theorem pyInsert_chain {α : Type} (before : α → α → Bool) (R : α → α → Prop)
    (h1 : ∀ a b, before a b = true → R a b) (h2 : ∀ a b, before a b = false → R b a) (x : α) :
    ∀ l : List α, List.Chain' R l → List.Chain' R (pyInsert before x l) := by
  intro l
  induction l with
  | nil => intro _; simp [pyInsert]
  | cons y ys ih =>
    intro h
    unfold pyInsert
    by_cases hb : before x y
    · rw [if_pos hb]
      rw [List.chain'_cons]
      exact ⟨h1 x y hb, h⟩
    · have hb' : before x y = false := by simpa using hb
      rw [if_neg hb]
      cases ys with
      | nil =>
        simp only [pyInsert]
        rw [List.chain'_cons]
        exact ⟨h2 x y hb', List.chain'_singleton x⟩
      | cons z zs =>
        rw [List.chain'_cons] at h
        have htail := ih h.2
        by_cases hz : before x z
        · have : pyInsert before x (z :: zs) = x :: z :: zs := by simp [pyInsert, hz]
          rw [this]
          rw [this] at htail
          rw [List.chain'_cons]
          exact ⟨h2 x y hb', htail⟩
        · have : pyInsert before x (z :: zs) = z :: pyInsert before x zs := by simp [pyInsert, hz]
          rw [this]
          rw [this] at htail
          rw [List.chain'_cons]
          exact ⟨h.1, htail⟩

theorem pySortedAux_chain {α : Type} (before : α → α → Bool) (R : α → α → Prop)
    (h1 : ∀ a b, before a b = true → R a b) (h2 : ∀ a b, before a b = false → R b a) :
    ∀ (l acc : List α), List.Chain' R acc → List.Chain' R (pySortedAux before l acc) := by
  intro l
  induction l with
  | nil => intro acc h; exact h
  | cons x xs ih =>
    intro acc h
    exact ih _ (pyInsert_chain before R h1 h2 x acc h)

theorem pySorted_chain {α : Type} (before : α → α → Bool) (R : α → α → Prop)
    (h1 : ∀ a b, before a b = true → R a b) (h2 : ∀ a b, before a b = false → R b a)
    (l : List α) : List.Chain' R (pySorted before l) :=
  pySortedAux_chain before R h1 h2 l [] List.chain'_nil

theorem pyInsert_all_after {α : Type} (before : α → α → Bool) (x : α) :
    ∀ acc : List α, (∀ y ∈ acc, before x y = false) → pyInsert before x acc = acc ++ [x] := by
  intro acc
  induction acc with
  | nil => intro _; rfl
  | cons y ys ih =>
    intro h
    unfold pyInsert
    rw [if_neg (by simp [h y (List.mem_cons_self y ys)])]
    rw [ih (fun z hz => h z (List.mem_cons_of_mem y hz))]
    simp

theorem pySortedAux_of_sorted {α : Type} (before : α → α → Bool) :
    ∀ (l acc : List α), List.Pairwise (fun a b => before b a = false) l →
      (∀ x ∈ l, ∀ y ∈ acc, before x y = false) → pySortedAux before l acc = acc ++ l := by
  intro l
  induction l with
  | nil => intro acc _ _; simp [pySortedAux]
  | cons x xs ih =>
    intro acc hp hacc
    rw [List.pairwise_cons] at hp
    unfold pySortedAux
    rw [pyInsert_all_after before x acc (hacc x (List.mem_cons_self x xs))]
    rw [ih (acc ++ [x]) hp.2 ?_]
    · simp
    · intro z hz y hy
      rcases List.mem_append.mp hy with hy | hy
      · exact hacc z (List.mem_cons_of_mem x hz) y hy
      · rw [List.mem_singleton.mp hy]
        exact hp.1 z hz

theorem pySorted_of_sorted {α : Type} (before : α → α → Bool) (l : List α)
    (hp : List.Pairwise (fun a b => before b a = false) l) : pySorted before l = l := by
  simpa [pySorted] using pySortedAux_of_sorted before l [] hp (by simp)

theorem scoreDescBefore_true {a b : DocId × ℚ} (h : scoreDescBefore a b = true) : b.2 ≤ a.2 := by
  have := of_decide_eq_true h
  exact le_of_lt this

theorem scoreDescBefore_false {a b : DocId × ℚ} (h : scoreDescBefore a b = false) : a.2 ≤ b.2 := by
  have := of_decide_eq_false h
  exact le_of_not_lt this

theorem chain_desc_head_bound (y : DocId × ℚ) (ys : List (DocId × ℚ))
    (h : List.Chain' (fun a b : DocId × ℚ => b.2 ≤ a.2) (y :: ys)) :
    ∀ z ∈ y :: ys, z.2 ≤ y.2 := by
  letI : IsTrans (DocId × ℚ) (fun a b : DocId × ℚ => b.2 ≤ a.2) :=
    ⟨fun a b c hab hbc => le_trans hbc hab⟩
  rw [List.chain'_iff_pairwise] at h
  intro z hz
  rcases List.mem_cons.mp hz with h1 | h1
  · rw [h1]
  · exact (List.pairwise_cons.mp h).1 z h1

theorem pyInsert_filter_score (s : ℚ) (x : DocId × ℚ) :
    ∀ l : List (DocId × ℚ), List.Chain' (fun a b : DocId × ℚ => b.2 ≤ a.2) l →
      (pyInsert scoreDescBefore x l).filter (fun p => decide (p.2 = s)) =
        l.filter (fun p => decide (p.2 = s)) ++ (if x.2 = s then [x] else []) := by
  intro l
  induction l with
  | nil =>
    intro _
    by_cases hs : x.2 = s <;> simp [pyInsert, List.filter, hs]
  | cons y ys ih =>
    intro h
    unfold pyInsert
    by_cases hb : scoreDescBefore x y
    · rw [if_pos hb]
      have hlt : y.2 < x.2 := by simpa [scoreDescBefore] using hb
      by_cases hs : x.2 = s
      · have hnil : (y :: ys).filter (fun p => decide (p.2 = s)) = [] := by
          rw [List.filter_eq_nil_iff]
          intro z hz
          have hz2 : z.2 ≤ y.2 := chain_desc_head_bound y ys h z hz
          simp only [decide_eq_true_eq]
          intro he
          rw [he] at hz2
          exact absurd (lt_of_le_of_lt hz2 (hs ▸ hlt)) (lt_irrefl s)
        rw [List.filter_cons_of_pos (by simp [hs]), hnil, if_pos hs]
        simp
      · rw [List.filter_cons_of_neg (by simp [hs]), if_neg hs]
        simp
    · rw [if_neg hb]
      have htail : List.Chain' (fun a b : DocId × ℚ => b.2 ≤ a.2) ys := h.tail
      rw [List.filter_cons, List.filter_cons, ih htail]
      by_cases hy : y.2 = s <;> simp [hy, List.append_assoc]

theorem pySortedAux_filter_score (s : ℚ) :
    ∀ (l acc : List (DocId × ℚ)), List.Chain' (fun a b : DocId × ℚ => b.2 ≤ a.2) acc →
      (pySortedAux scoreDescBefore l acc).filter (fun p => decide (p.2 = s)) =
        acc.filter (fun p => decide (p.2 = s)) ++ l.filter (fun p => decide (p.2 = s)) := by
  intro l
  induction l with
  | nil => intro acc _; simp [pySortedAux]
  | cons x xs ih =>
    intro acc hacc
    unfold pySortedAux
    have hacc' : List.Chain' (fun a b : DocId × ℚ => b.2 ≤ a.2)
        (pyInsert scoreDescBefore x acc) :=
      pyInsert_chain scoreDescBefore _ (fun a b hab => scoreDescBefore_true hab)
        (fun a b hab => scoreDescBefore_false hab) x acc hacc
    rw [ih _ hacc', pyInsert_filter_score s x acc hacc, List.filter_cons]
    by_cases hx : x.2 = s <;> simp [hx, List.append_assoc]

theorem pySorted_filter_score (s : ℚ) (l : List (DocId × ℚ)) :
    (pySorted scoreDescBefore l).filter (fun p => decide (p.2 = s)) =
      l.filter (fun p => decide (p.2 = s)) := by
  simpa [pySorted] using pySortedAux_filter_score s l [] List.chain'_nil

theorem pySorted_score_desc (l : List (DocId × ℚ)) :
    List.Chain' (fun a b : DocId × ℚ => b.2 ≤ a.2) (pySorted scoreDescBefore l) :=
  pySorted_chain scoreDescBefore _ (fun a b hab => scoreDescBefore_true hab)
    (fun a b hab => scoreDescBefore_false hab) l

/-! ### `np.min` / `np.max` / `np.argmax` lemmas -/

theorem foldl_min_le_init : ∀ (xs : List ℚ) (a : ℚ), xs.foldl min a ≤ a := by
  intro xs
  induction xs with
  | nil => intro a; simp
  | cons x xs ih =>
    intro a
    simp only [List.foldl_cons]
    exact le_trans (ih (min a x)) (min_le_left a x)

theorem foldl_min_le_mem : ∀ (xs : List ℚ) (a x : ℚ), x ∈ xs → xs.foldl min a ≤ x := by
  intro xs
  induction xs with
  | nil => intro a x hx; cases hx
  | cons y ys ih =>
    intro a x hx
    rcases List.mem_cons.mp hx with h | h
    · simp only [List.foldl_cons]
      exact le_trans (foldl_min_le_init ys (min a y)) (h ▸ min_le_right a y)
    · exact ih (min a y) x h

theorem listMinQ_le (l : List ℚ) : ∀ x ∈ l, listMinQ l ≤ x := by
  cases l with
  | nil => intro x hx; cases hx
  | cons y ys =>
    intro x hx
    rcases List.mem_cons.mp hx with h | h
    · exact h ▸ foldl_min_le_init ys y
    · exact foldl_min_le_mem ys y x h

theorem init_le_foldl_max : ∀ (xs : List ℚ) (a : ℚ), a ≤ xs.foldl max a := by
  intro xs
  induction xs with
  | nil => intro a; simp
  | cons x xs ih =>
    intro a
    simp only [List.foldl_cons]
    exact le_trans (le_max_left a x) (ih (max a x))

theorem mem_le_foldl_max : ∀ (xs : List ℚ) (a x : ℚ), x ∈ xs → x ≤ xs.foldl max a := by
  intro xs
  induction xs with
  | nil => intro a x hx; cases hx
  | cons y ys ih =>
    intro a x hx
    rcases List.mem_cons.mp hx with h | h
    · simp only [List.foldl_cons]
      exact le_trans (h ▸ le_max_right a y) (init_le_foldl_max ys (max a y))
    · exact ih (max a y) x h

theorem le_listMaxQ (l : List ℚ) : ∀ x ∈ l, x ≤ listMaxQ l := by
  cases l with
  | nil => intro x hx; cases hx
  | cons y ys =>
    intro x hx
    rcases List.mem_cons.mp hx with h | h
    · exact h ▸ init_le_foldl_max ys y
    · exact mem_le_foldl_max ys y x h

theorem foldl_max_le : ∀ (xs : List ℚ) (a c : ℚ), a ≤ c → (∀ x ∈ xs, x ≤ c) → xs.foldl max a ≤ c := by
  intro xs
  induction xs with
  | nil => intro a c ha _; simpa using ha
  | cons y ys ih =>
    intro a c ha h
    simp only [List.foldl_cons]
    exact ih (max a y) c (max_le ha (h y (List.mem_cons_self y ys)))
      (fun x hx => h x (List.mem_cons_of_mem y hx))

theorem listMaxQ_le (l : List ℚ) (c : ℚ) (hc : 0 ≤ c) (h : ∀ x ∈ l, x ≤ c) : listMaxQ l ≤ c := by
  cases l with
  | nil => exact hc
  | cons y ys =>
    exact foldl_max_le ys y c (h y (List.mem_cons_self y ys))
      (fun x hx => h x (List.mem_cons_of_mem y hx))

theorem argmaxAux_lt : ∀ (xs : List ℚ) (i bi : Nat) (bv : ℚ), bi < i →
    argmaxAux xs i bi bv < i + xs.length := by
  intro xs
  induction xs with
  | nil => intro i bi bv h; simpa [argmaxAux] using h
  | cons x xs ih =>
    intro i bi bv h
    unfold argmaxAux
    by_cases hb : bv < x
    · rw [if_pos hb]
      have := ih (i + 1) i x (Nat.lt_succ_self i)
      simp only [List.length_cons]
      omega
    · rw [if_neg hb]
      have := ih (i + 1) bi bv (Nat.lt_succ_of_lt h)
      simp only [List.length_cons]
      omega

theorem argmaxIdx_lt (l : List ℚ) (h : l ≠ []) : argmaxIdx l < l.length := by
  cases l with
  | nil => exact absurd rfl h
  | cons x xs =>
    have := argmaxAux_lt xs 1 0 x Nat.one_pos
    simpa [argmaxIdx, Nat.add_comm] using this

theorem argmaxAux_of_ge : ∀ (xs : List ℚ) (i bi : Nat) (bv : ℚ), (∀ x ∈ xs, x ≤ bv) →
    argmaxAux xs i bi bv = bi := by
  intro xs
  induction xs with
  | nil => intro i bi bv _; rfl
  | cons x xs ih =>
    intro i bi bv h
    unfold argmaxAux
    rw [if_neg (not_lt.mpr (h x (List.mem_cons_self x xs)))]
    exact ih (i + 1) bi bv (fun y hy => h y (List.mem_cons_of_mem x hy))

theorem argmaxIdx_of_head_max (x : ℚ) (xs : List ℚ) (h : ∀ y ∈ xs, y ≤ x) :
    argmaxIdx (x :: xs) = 0 :=
  argmaxAux_of_ge xs 1 0 x h

/-! ### Hydration and `np.array` lemmas -/

theorem hydrate_ok (embStore : DocId → Option (List ℚ)) (dim : Nat) :
    ∀ ids : List DocId,
      (∀ id ∈ ids, (embStore id).isSome ∧ ((embStore id).getD []).length = dim) →
      ∃ embs, hydrate embStore ids = .ok embs ∧ embs.length = ids.length ∧
        ∀ e ∈ embs, e.length = dim := by
  intro ids
  induction ids with
  | nil => intro _; exact ⟨[], rfl, rfl, by simp⟩
  | cons id rest ih =>
    intro h
    obtain ⟨hs, hd⟩ := h id (List.mem_cons_self id rest)
    obtain ⟨e, he⟩ := Option.isSome_iff_exists.mp hs
    obtain ⟨embs, h1, h2, h3⟩ := ih (fun x hx => h x (List.mem_cons_of_mem id hx))
    refine ⟨e :: embs, ?_, by simp [h2], ?_⟩
    · simp only [hydrate, he, h1]
      rfl
    · intro e' he'
      rcases List.mem_cons.mp he' with hh | hh
      · rw [hh]
        rw [he] at hd
        simpa using hd
      · exact h3 e' hh

theorem hydrate_error (embStore : DocId → Option (List ℚ)) :
    ∀ ids : List DocId, (∃ id ∈ ids, embStore id = none) →
      hydrate embStore ids = .error "KeyError" := by
  intro ids
  induction ids with
  | nil => rintro ⟨id, h, _⟩; cases h
  | cons i rest ih =>
    rintro ⟨id, hmem, hnone⟩
    cases hm : embStore i with
    | none => simp [hydrate, hm]
    | some e =>
      rcases List.mem_cons.mp hmem with h | h
      · rw [h] at hnone
        rw [hnone] at hm
        cases hm
      · have := ih ⟨id, h, hnone⟩
        simp only [hydrate, hm, this]
        rfl

theorem npArray_ok (rows : List (List ℚ)) (dim : Nat) (hne : rows ≠ [])
    (h : ∀ e ∈ rows, e.length = dim) : npArray rows = .ok (some rows) := by
  cases rows with
  | nil => exact absurd rfl hne
  | cons r rest =>
    simp only [npArray]
    rw [if_pos]
    rw [List.all_eq_true]
    intro r2 hr2
    have h2 := h r2 (List.mem_cons_of_mem r hr2)
    have hr := h r (List.mem_cons_self r rest)
    simp [h2, hr]

/-! ### Normalisation lemmas -/

theorem normalizeRel_length (relRaw : List ℚ) : (normalizeRel relRaw).length = relRaw.length := by
  unfold normalizeRel
  split <;> simp

theorem normalizeRel_nonneg (relRaw : List ℚ) : ∀ i : Nat, 0 ≤ (normalizeRel relRaw).getD i 0 := by
  intro i
  unfold normalizeRel
  by_cases h : listMinQ relRaw < listMaxQ relRaw
  · rw [if_pos h]
    by_cases hi : i < (relRaw.map
        (fun r => (r - listMinQ relRaw) / (listMaxQ relRaw - listMinQ relRaw))).length
    · rw [List.getD_eq_getElem _ _ hi, List.getElem_map]
      apply div_nonneg
      · rw [sub_nonneg]
        exact listMinQ_le relRaw _ (List.getElem_mem _)
      · linarith
    · rw [List.getD_eq_default _ _ (le_of_not_lt hi)]
  · rw [if_neg h]
    by_cases hi : i < (relRaw.map (fun _ => (0 : ℚ))).length
    · rw [List.getD_eq_getElem _ _ hi, List.getElem_map]
    · rw [List.getD_eq_default _ _ (le_of_not_lt hi)]

/-! ### `bestCandidate` / `mmrLoop` lemmas -/

theorem penalty_le_one (sim : Nat → Nat → ℚ) (c : Nat) (selected : List Nat)
    (hsim : ∀ i j, sim i j ≤ 1) :
    (if selected.isEmpty then (0 : ℚ) else listMaxQ (selected.map (fun j => sim c j))) ≤ 1 := by
  split
  · exact zero_le_one
  · apply listMaxQ_le _ 1 zero_le_one
    intro x hx
    obtain ⟨j, _, he⟩ := List.mem_map.mp hx
    exact he ▸ hsim c j

theorem mmr_val_lower (lam rc pen : ℚ) (hlam0 : 0 ≤ lam) (hlam1 : lam ≤ 1)
    (hrc : 0 ≤ rc) (hpen : pen ≤ 1) : -(10 ^ 9 : ℚ) < lam * rc - (1 - lam) * pen := by
  have h1 : 0 ≤ lam * rc := mul_nonneg hlam0 hrc
  have h2 : (1 - lam) * pen ≤ (1 - lam) * 1 := by
    apply mul_le_mul_of_nonneg_left hpen
    linarith
  rw [mul_one] at h2
  nlinarith

theorem mmrStep_fst (relF : Nat → ℚ) (sim : Nat → Nat → ℚ) (lam : ℚ) (selected : List Nat)
    (acc : Option Nat × ℚ) (idx : Nat) :
    (mmrStep relF sim lam selected acc idx).1 = acc.1 ∨
      (mmrStep relF sim lam selected acc idx).1 = some idx := by
  unfold mmrStep
  dsimp only
  by_cases h : acc.2 < lam * relF idx - (1 - lam) *
      (if selected.isEmpty then (0 : ℚ) else listMaxQ (selected.map (fun j => sim idx j)))
  · rw [if_pos h]; right; rfl
  · rw [if_neg h]; left; rfl

theorem mmrStep_isSome (relF : Nat → ℚ) (sim : Nat → Nat → ℚ) (lam : ℚ) (selected : List Nat)
    (acc : Option Nat × ℚ) (idx : Nat) (h : acc.1.isSome) :
    (mmrStep relF sim lam selected acc idx).1.isSome := by
  unfold mmrStep
  dsimp only
  by_cases hc : acc.2 < lam * relF idx - (1 - lam) *
      (if selected.isEmpty then (0 : ℚ) else listMaxQ (selected.map (fun j => sim idx j)))
  · rw [if_pos hc]; rfl
  · rw [if_neg hc]; exact h

theorem foldl_mmrStep_fst (relF : Nat → ℚ) (sim : Nat → Nat → ℚ) (lam : ℚ) (selected : List Nat) :
    ∀ (cands : List Nat) (acc : Option Nat × ℚ),
      (cands.foldl (mmrStep relF sim lam selected) acc).1 = acc.1 ∨
        ∃ b ∈ cands, (cands.foldl (mmrStep relF sim lam selected) acc).1 = some b := by
  intro cands
  induction cands with
  | nil => intro acc; left; rfl
  | cons c cs ih =>
    intro acc
    rw [List.foldl_cons]
    rcases ih (mmrStep relF sim lam selected acc c) with h | ⟨b, hb, he⟩
    · rcases mmrStep_fst relF sim lam selected acc c with h2 | h2
      · left; rw [h, h2]
      · right; exact ⟨c, List.mem_cons_self c cs, by rw [h, h2]⟩
    · right; exact ⟨b, List.mem_cons_of_mem c hb, he⟩

theorem foldl_mmrStep_isSome (relF : Nat → ℚ) (sim : Nat → Nat → ℚ) (lam : ℚ)
    (selected : List Nat) :
    ∀ (cands : List Nat) (acc : Option Nat × ℚ), acc.1.isSome →
      (cands.foldl (mmrStep relF sim lam selected) acc).1.isSome := by
  intro cands
  induction cands with
  | nil => intro acc h; exact h
  | cons c cs ih =>
    intro acc h
    rw [List.foldl_cons]
    exact ih _ (mmrStep_isSome relF sim lam selected acc c h)

theorem bestCandidate_some (relF : Nat → ℚ) (sim : Nat → Nat → ℚ) (lam : ℚ)
    (selected cands : List Nat) (hne : cands ≠ [])
    (hlam0 : 0 ≤ lam) (hlam1 : lam ≤ 1) (hrel : ∀ i, 0 ≤ relF i) (hsim : ∀ i j, sim i j ≤ 1) :
    ∃ b ∈ cands, (bestCandidate relF sim lam selected cands).1 = some b := by
  cases cands with
  | nil => exact absurd rfl hne
  | cons c cs =>
    unfold bestCandidate
    rw [List.foldl_cons]
    have hsome : (mmrStep relF sim lam selected (none, -(10 ^ 9 : ℚ)) c).1 = some c := by
      unfold mmrStep
      dsimp only
      rw [if_pos]
      exact mmr_val_lower lam (relF c) _ hlam0 hlam1 (hrel c)
        (penalty_le_one sim c selected hsim)
    rcases foldl_mmrStep_fst relF sim lam selected cs
        (mmrStep relF sim lam selected (none, -(10 ^ 9 : ℚ)) c) with h | ⟨b, hb, he⟩
    · exact ⟨c, List.mem_cons_self c cs, by rw [h, hsome]⟩
    · exact ⟨b, List.mem_cons_of_mem c hb, he⟩

theorem mmrLoop_spec (relF : Nat → ℚ) (sim : Nat → Nat → ℚ) (lam : ℚ) (k : Int) (n : Nat)
    (hlam0 : 0 ≤ lam) (hlam1 : lam ≤ 1) (hrel : ∀ i, 0 ≤ relF i) (hsim : ∀ i j, sim i j ≤ 1) :
    ∀ (fuel : Nat) (selected cands : List Nat),
      cands.length ≤ fuel →
      selected.Nodup → cands.Nodup →
      (∀ x ∈ cands, x ∉ selected) →
      (∀ x ∈ selected, x < n) → (∀ x ∈ cands, x < n) →
      selected.length + cands.length = n →
      ∃ sel, mmrLoop relF sim lam k n fuel selected cands = .ok sel ∧
        sel.Nodup ∧ (∀ x ∈ sel, x < n) ∧
        sel.length = max selected.length (min k (n : Int)).toNat := by
  intro fuel
  induction fuel with
  | zero =>
    intro selected cands hf hnd _ _ hsb _ hsum
    have hc : cands = [] := List.length_eq_zero.mp (Nat.le_zero.mp hf)
    subst hc
    refine ⟨selected, rfl, hnd, hsb, ?_⟩
    have h1 : selected.length = n := by simpa using hsum
    omega
  | succ fuel ih =>
    intro selected cands hf hnd hcd hdisj hsb hcb hsum
    simp only [mmrLoop]
    by_cases hcond : (selected.length : Int) < min k (n : Int) ∧ cands ≠ []
    · rw [if_pos hcond]
      obtain ⟨b, hbmem, hbfst⟩ :=
        bestCandidate_some relF sim lam selected cands hcond.2 hlam0 hlam1 hrel hsim
      have hclen : 1 ≤ cands.length := by
        cases cands with
        | nil => exact absurd rfl hcond.2
        | cons c cs => simp
      have hblt : b < n := hcb b hbmem
      have hbnotsel : b ∉ selected := hdisj b hbmem
      have hlen_erase : (cands.erase b).length = cands.length - 1 :=
        List.length_erase_of_mem hbmem
      obtain ⟨sel, h1, h2, h3, h4⟩ := ih (selected ++ [b]) (cands.erase b)
        (by omega)
        (by
          rw [List.nodup_append]
          exact ⟨hnd, List.nodup_singleton b, by
            intro a ha hb2
            rw [List.mem_singleton] at hb2
            exact hdisj a (hb2 ▸ hbmem) ha⟩)
        (hcd.erase b)
        (by
          intro x hx
          rw [hcd.mem_erase_iff] at hx
          rw [List.mem_append, List.mem_singleton]
          push_neg
          exact ⟨hdisj x hx.2, hx.1⟩)
        (by
          intro x hx
          rcases List.mem_append.mp hx with h | h
          · exact hsb x h
          · exact (List.mem_singleton.mp h) ▸ hblt)
        (fun x hx => hcb x (List.mem_of_mem_erase hx))
        (by
          rw [List.length_append, List.length_singleton]
          omega)
      cases hbc : bestCandidate relF sim lam selected cands with
      | mk fst snd =>
        rw [hbc] at hbfst
        dsimp at hbfst
        rw [hbfst]
        exact ⟨sel, h1, h2, h3, by
          rw [h4, List.length_append, List.length_singleton]
          have hci := hcond.1
          omega⟩
    · rw [if_neg hcond]
      refine ⟨selected, rfl, hnd, hsb, ?_⟩
      rcases Decidable.not_and_iff_or_not.mp hcond with h | h
      · have h2 : ¬ ((selected.length : Int) < min k (n : Int)) := h
        omega
      · have hc : cands = [] := by
          by_contra hcc
          exact h hcc
        subst hc
        have h1 : selected.length = n := by simpa using hsum
        omega

theorem mmrStep_lambda_one_val (relF : Nat → ℚ) (sim : Nat → Nat → ℚ) (selected : List Nat)
    (acc : Option Nat × ℚ) (idx : Nat) :
    mmrStep relF sim 1 selected acc idx = if acc.2 < relF idx then (some idx, relF idx) else acc := by
  unfold mmrStep
  dsimp only
  have hval : (1 : ℚ) * relF idx - (1 - 1) *
      (if selected.isEmpty then (0 : ℚ) else listMaxQ (selected.map (fun j => sim idx j))) =
        relF idx := by ring
  rw [hval]

theorem foldl_mmrStep_const_one (relF : Nat → ℚ) (sim : Nat → Nat → ℚ) (selected : List Nat) :
    ∀ (rest : List Nat) (b : Option Nat) (v : ℚ), (∀ j ∈ rest, relF j ≤ v) →
      rest.foldl (mmrStep relF sim 1 selected) (b, v) = (b, v) := by
  intro rest
  induction rest with
  | nil => intro b v _; rfl
  | cons j js ih =>
    intro b v h
    rw [List.foldl_cons, mmrStep_lambda_one_val]
    rw [if_neg (not_lt.mpr (h j (List.mem_cons_self j js)))]
    exact ih b v (fun x hx => h x (List.mem_cons_of_mem j hx))

theorem bestCandidate_lambda_one (relF : Nat → ℚ) (sim : Nat → Nat → ℚ) (selected : List Nat)
    (m : Nat) (rest : List Nat) (hm : 0 ≤ relF m) (hrest : ∀ j ∈ rest, relF j ≤ relF m) :
    bestCandidate relF sim 1 selected (m :: rest) = (some m, relF m) := by
  unfold bestCandidate
  rw [List.foldl_cons, mmrStep_lambda_one_val]
  rw [if_pos (by show -(10 ^ 9 : ℚ) < relF m; linarith)]
  exact foldl_mmrStep_const_one relF sim selected rest (some m) (relF m) hrest

theorem chain_desc_head_bound_q (y : ℚ) (ys : List ℚ)
    (h : List.Chain' (fun a b : ℚ => b ≤ a) (y :: ys)) : ∀ z ∈ ys, z ≤ y := by
  letI : IsTrans ℚ (fun a b : ℚ => b ≤ a) := ⟨fun _ _ _ hab hbc => le_trans hbc hab⟩
  rw [List.chain'_iff_pairwise] at h
  exact (List.pairwise_cons.mp h).1

theorem normalizeRel_chain (relRaw : List ℚ)
    (h : List.Chain' (fun a b : ℚ => b ≤ a) relRaw) :
    List.Chain' (fun a b : ℚ => b ≤ a) (normalizeRel relRaw) := by
  unfold normalizeRel
  by_cases hc : listMinQ relRaw < listMaxQ relRaw
  · rw [if_pos hc, List.chain'_map]
    refine h.imp ?_
    intro a b hab
    exact (div_le_div_iff_of_pos_right (by linarith)).mpr (by linarith)
  · rw [if_neg hc, List.chain'_map]
    exact h.imp (fun _ _ _ => le_refl 0)

theorem normalizeRel_getD_mono (relRaw : List ℚ)
    (h : List.Chain' (fun a b : ℚ => b ≤ a) relRaw) :
    ∀ i j : Nat, i ≤ j → (normalizeRel relRaw).getD j 0 ≤ (normalizeRel relRaw).getD i 0 := by
  letI : IsTrans ℚ (fun a b : ℚ => b ≤ a) := ⟨fun _ _ _ hab hbc => le_trans hbc hab⟩
  have hch := normalizeRel_chain relRaw h
  intro i j hij
  by_cases hj : j < (normalizeRel relRaw).length
  · have hi : i < (normalizeRel relRaw).length := lt_of_le_of_lt hij hj
    rw [List.getD_eq_getElem _ _ hi, List.getD_eq_getElem _ _ hj]
    rcases Nat.eq_or_lt_of_le hij with he | hlt
    · subst he
      exact le_refl _
    · rw [List.chain'_iff_pairwise] at hch
      exact List.pairwise_iff_getElem.mp hch i j hi hj hlt
  · rw [List.getD_eq_default _ _ (le_of_not_lt hj)]
    exact normalizeRel_nonneg relRaw i

theorem mmrLoop_lambda_one (relF : Nat → ℚ) (sim : Nat → Nat → ℚ) (k : Int) (n : Nat)
    (hmono : ∀ i j : Nat, i ≤ j → relF j ≤ relF i) (hrel : ∀ i, 0 ≤ relF i) :
    ∀ (fuel m : Nat), 1 ≤ m → n - m ≤ fuel →
      mmrLoop relF sim 1 k n fuel (List.range m) (List.range' m (n - m)) =
        .ok (List.range (max m (min k (n : Int)).toNat)) := by
  intro fuel
  induction fuel with
  | zero =>
    intro m _ hf
    simp only [mmrLoop]
    have hm : max m (min k (n : Int)).toNat = m := by omega
    rw [hm]
  | succ fuel ih =>
    intro m h1 hf
    simp only [mmrLoop]
    by_cases hcond : ((List.range m).length : Int) < min k (n : Int) ∧ List.range' m (n - m) ≠ []
    · rw [if_pos hcond]
      have hlt : (m : Int) < min k (n : Int) := by
        have := hcond.1
        simpa using this
      have hmn : m < n := by omega
      have hcons : List.range' m (n - m) = m :: List.range' (m + 1) (n - m - 1) := by
        have hx : n - m = (n - m - 1) + 1 := by omega
        conv_lhs => rw [hx]
        rw [List.range'_succ]
      rw [hcons]
      have hrest : ∀ j ∈ List.range' (m + 1) (n - m - 1), relF j ≤ relF m := by
        intro j hj
        rw [List.mem_range'_1] at hj
        exact hmono m j (by omega)
      rw [bestCandidate_lambda_one relF sim (List.range m) m _ (hrel m) hrest]
      have he1 : List.range m ++ [m] = List.range (m + 1) := (List.range_succ m).symm
      have he2 : (m :: List.range' (m + 1) (n - m - 1)).erase m =
          List.range' (m + 1) (n - m - 1) := List.erase_cons_head m _
      show mmrLoop relF sim 1 k n fuel (List.range m ++ [m])
          ((m :: List.range' (m + 1) (n - m - 1)).erase m) =
        Except.ok (List.range (max m (min k (n : Int)).toNat))
      rw [he1, he2]
      have hrec := ih (m + 1) (by omega) (by omega)
      rw [show n - (m + 1) = n - m - 1 from by omega] at hrec
      rw [hrec]
      have hmax : max (m + 1) (min k (n : Int)).toNat = max m (min k (n : Int)).toNat := by
        omega
      rw [hmax]
    · rw [if_neg hcond]
      have hm : max m (min k (n : Int)).toNat = m := by
        rcases Decidable.not_and_iff_or_not.mp hcond with h | h
        · have h2 : ¬ ((m : Int) < min k (n : Int)) := by simpa using h
          omega
        · have h2 : n - m = 0 := by
            by_contra hc2
            exact h (by simpa [List.range'_eq_nil] using hc2)
          omega
      rw [hm]

/-! ### `mmr_select` main-path reduction -/

theorem mmr_select_eq_loop (embStore : DocId → Option (List ℚ))
    (simOf : List (List ℚ) → Nat → Nat → ℚ) (ranked : List DocId)
    (rel_scores : List (DocId × ℚ)) (k : Int) (lam : ℚ) (dim : Nat)
    (hne : ranked ≠ [])
    (hyd : ∀ id ∈ ranked, (embStore id).isSome ∧ ((embStore id).getD []).length = dim) :
    ∃ embs, hydrate embStore ranked = .ok embs ∧ embs.length = ranked.length ∧
      mmr_select embStore simOf ranked rel_scores k lam =
        (match mmrLoop (fun i => (normalizeRel (relRawOf ranked rel_scores)).getD i 0)
            (simOf embs) lam k ranked.length
            ((List.range ranked.length).erase
              (argmaxIdx (normalizeRel (relRawOf ranked rel_scores)))).length
            [argmaxIdx (normalizeRel (relRawOf ranked rel_scores))]
            ((List.range ranked.length).erase
              (argmaxIdx (normalizeRel (relRawOf ranked rel_scores)))) with
          | .error e => .error e
          | .ok sel => .ok (sel.map (fun i => ranked.getD i ""))) := by
  obtain ⟨embs, h1, h2, h3⟩ := hydrate_ok embStore dim ranked hyd
  refine ⟨embs, h1, h2, ?_⟩
  have hembs_ne : embs ≠ [] := by
    intro hc
    rw [hc] at h2
    exact hne (List.length_eq_zero.mp h2.symm)
  unfold mmr_select
  rw [if_neg (by simp [List.isEmpty_iff, hne])]
  rw [if_neg (by simp [relRawOf, List.isEmpty_iff, hne])]
  rw [h1]
  dsimp only
  rw [npArray_ok embs dim hembs_ne h3]
  dsimp only
  rw [if_neg (by simp [h2])]

theorem map_getD_range_eq_take (l : List DocId) (K : Nat) (hK : K ≤ l.length) :
    (List.range K).map (fun i => l.getD i "") = l.take K := by
  apply List.ext_getElem
  · simp [hK]
  · intro i h1 h2
    rw [List.getElem_map, List.getElem_range, List.getElem_take]
    have hi : i < l.length := by
      simp at h2
      omega
    rw [List.getD_eq_getElem _ _ hi]

/-- Main-path behaviour of `_mmr_select`: with a nonempty, duplicate-free
candidate pool whose embeddings all hydrate at a common dimension, and
`0 < k`, `0 ≤ λ ≤ 1`, similarity values ≤ 1, the selector succeeds and returns
exactly `min(k, pool size)` distinct ids drawn from the pool. -/
theorem mmr_select_count (embStore : DocId → Option (List ℚ))
    (simOf : List (List ℚ) → Nat → Nat → ℚ) (ranked : List DocId)
    (rel_scores : List (DocId × ℚ)) (k : Int) (lam : ℚ) (dim : Nat)
    (hne : ranked ≠ []) (hnd : ranked.Nodup) (hk : 0 < k)
    (hyd : ∀ id ∈ ranked, (embStore id).isSome ∧ ((embStore id).getD []).length = dim)
    (hlam0 : 0 ≤ lam) (hlam1 : lam ≤ 1) (hsim : ∀ E i j, simOf E i j ≤ 1) :
    ∃ sel, mmr_select embStore simOf ranked rel_scores k lam = .ok sel ∧
      sel.length = min k.toNat ranked.length ∧ sel.Nodup ∧ ∀ x ∈ sel, x ∈ ranked := by
  obtain ⟨embs, h1, h2, heq⟩ :=
    mmr_select_eq_loop embStore simOf ranked rel_scores k lam dim hne hyd
  have hn1 : 1 ≤ ranked.length := List.length_pos.mpr hne
  have hreln : (normalizeRel (relRawOf ranked rel_scores)).length = ranked.length := by
    rw [normalizeRel_length]
    simp [relRawOf]
  have hfirst_lt : argmaxIdx (normalizeRel (relRawOf ranked rel_scores)) < ranked.length := by
    have hne2 : normalizeRel (relRawOf ranked rel_scores) ≠ [] := by
      intro hc
      rw [hc] at hreln
      simp at hreln
      omega
    have := argmaxIdx_lt _ hne2
    omega
  have hfirst_mem : argmaxIdx (normalizeRel (relRawOf ranked rel_scores)) ∈
      List.range ranked.length := List.mem_range.mpr hfirst_lt
  have hcands_len :
      ((List.range ranked.length).erase
        (argmaxIdx (normalizeRel (relRawOf ranked rel_scores)))).length =
      ranked.length - 1 := by
    rw [List.length_erase_of_mem hfirst_mem, List.length_range]
  obtain ⟨sel, hloop, hnd2, hbound, hlen⟩ :=
    mmrLoop_spec (fun i => (normalizeRel (relRawOf ranked rel_scores)).getD i 0) (simOf embs)
      lam k ranked.length hlam0 hlam1 (normalizeRel_nonneg _) (fun i j => hsim embs i j)
      ((List.range ranked.length).erase
        (argmaxIdx (normalizeRel (relRawOf ranked rel_scores)))).length
      [argmaxIdx (normalizeRel (relRawOf ranked rel_scores))]
      ((List.range ranked.length).erase
        (argmaxIdx (normalizeRel (relRawOf ranked rel_scores))))
      (le_refl _)
      (List.nodup_singleton _)
      ((List.nodup_range ranked.length).erase _)
      (by
        intro x hx
        rw [(List.nodup_range ranked.length).mem_erase_iff] at hx
        rw [List.mem_singleton]
        exact hx.1)
      (by
        intro x hx
        rw [List.mem_singleton] at hx
        exact hx ▸ hfirst_lt)
      (by
        intro x hx
        have := List.mem_of_mem_erase hx
        exact List.mem_range.mp this)
      (by
        rw [hcands_len]
        simp
        omega)
  refine ⟨sel.map (fun i => ranked.getD i ""), ?_, ?_, ?_, ?_⟩
  · rw [heq, hloop]
  · rw [List.length_map, hlen]
    simp only [List.length_singleton]
    omega
  · apply List.Nodup.map_on ?_ hnd2
    intro x hx y hy hxy
    have hxlt : x < ranked.length := hbound x hx
    have hylt : y < ranked.length := hbound y hy
    rw [List.getD_eq_getElem _ _ hxlt, List.getD_eq_getElem _ _ hylt] at hxy
    have hfin : (⟨x, hxlt⟩ : Fin ranked.length) = ⟨y, hylt⟩ :=
      List.nodup_iff_injective_getElem.mp hnd (by simpa using hxy)
    exact congrArg Fin.val hfin
  · intro x hx
    obtain ⟨i, hi, he⟩ := List.mem_map.mp hx
    have hilt : i < ranked.length := hbound i hi
    rw [List.getD_eq_getElem _ _ hilt] at he
    exact he ▸ List.getElem_mem hilt

theorem range_erase_zero (n : Nat) (hn : 1 ≤ n) :
    (List.range n).erase 0 = List.range' 1 (n - 1) := by
  obtain ⟨m, rfl⟩ : ∃ m, n = m + 1 := ⟨n - 1, by omega⟩
  rw [List.range_succ_eq_map, List.erase_cons_head]
  rw [List.range'_eq_map_range]
  simp only [Nat.add_sub_cancel]
  apply List.map_congr_left
  intro a _
  omega

/-- Claim C8: with hydrated embeddings (every pool id resolves to an embedding
of a common dimension), a nonempty pool in non-increasing fused-score order
(the order `retrieve` passes), and `k > 0`, running `_mmr_select` with
`λ = 1` selects exactly the fused-score descending order, truncated to
`min(k, pool size)` — the diversity penalty is multiplied by `1 − λ = 0` and
never changes which item is picked, whatever the similarity matrix is. -/
theorem mmr_select_lambda_one (embStore : DocId → Option (List ℚ))
    (simOf : List (List ℚ) → Nat → Nat → ℚ) (ranked : List DocId)
    (rel_scores : List (DocId × ℚ)) (k : Int) (dim : Nat)
    (hne : ranked ≠ []) (hk : 0 < k)
    (hyd : ∀ id ∈ ranked, (embStore id).isSome ∧ ((embStore id).getD []).length = dim)
    (hmono : List.Chain' (fun a b : ℚ => b ≤ a) (relRawOf ranked rel_scores)) :
    mmr_select embStore simOf ranked rel_scores k 1 =
      .ok (ranked.take (min k.toNat ranked.length)) := by
  obtain ⟨embs, h1, h2, heq⟩ :=
    mmr_select_eq_loop embStore simOf ranked rel_scores k 1 dim hne hyd
  have hn1 : 1 ≤ ranked.length := List.length_pos.mpr hne
  have hch : List.Chain' (fun a b : ℚ => b ≤ a) (normalizeRel (relRawOf ranked rel_scores)) :=
    normalizeRel_chain _ hmono
  have hfirst : argmaxIdx (normalizeRel (relRawOf ranked rel_scores)) = 0 := by
    cases hrel : normalizeRel (relRawOf ranked rel_scores) with
    | nil => rfl
    | cons r rs =>
      exact argmaxIdx_of_head_max r rs (chain_desc_head_bound_q r rs (hrel ▸ hch))
  rw [hfirst] at heq
  rw [range_erase_zero ranked.length hn1] at heq
  have hloop := mmrLoop_lambda_one (fun i => (normalizeRel (relRawOf ranked rel_scores)).getD i 0)
    (simOf embs) k ranked.length (normalizeRel_getD_mono _ hmono) (normalizeRel_nonneg _)
    (List.range' 1 (ranked.length - 1)).length 1 (le_refl 1) (by simp)
  rw [show List.range' 1 (ranked.length - 1) = List.range' 1 (ranked.length - 1) 1 from rfl] at heq
  rw [show List.range 1 = [0] from rfl] at hloop
  rw [show (List.range' 1 (ranked.length - 1)).length = ranked.length - 1 from by simp] at heq hloop
  rw [show ranked.length - 1 = ranked.length - 1 from rfl] at hloop
  rw [heq]
  rw [show List.range' 1 (ranked.length - 1) 1 = List.range' 1 (ranked.length - 1) from rfl]
  rw [hloop]
  have hmax : max 1 (min k (ranked.length : Int)).toNat = min k.toNat ranked.length := by
    omega
  rw [hmax]
  show Except.ok ((List.range (min k.toNat ranked.length)).map (fun i => ranked.getD i "")) =
    Except.ok (ranked.take (min k.toNat ranked.length))
  rw [map_getD_range_eq_take ranked _ (by omega)]

/-- If any candidate's embedding is absent from the index, `_mmr_select`
raises (`KeyError` at `id_to_emb[i]`) before any fallback can apply. -/
theorem mmr_select_missing_embedding (embStore : DocId → Option (List ℚ))
    (simOf : List (List ℚ) → Nat → Nat → ℚ) (ranked : List DocId)
    (rel_scores : List (DocId × ℚ)) (k : Int) (lam : ℚ)
    (hne : ranked ≠ []) (hmiss : ∃ id ∈ ranked, embStore id = none) :
    mmr_select embStore simOf ranked rel_scores k lam = .error "KeyError" := by
  unfold mmr_select
  rw [if_neg (by simp [List.isEmpty_iff, hne])]
  rw [if_neg (by simp [relRawOf, List.isEmpty_iff, hne])]
  rw [hydrate_error embStore ranked hmiss]

/-! ### Position dictionary and `finalizePayload` lemmas -/

theorem alookup_buildPosDictFrom : ∀ (l : List DocId) (i : Nat) (d : List (DocId × Nat)),
    (∀ y ∈ l, alookup d y = none) → l.Nodup → ∀ x,
    alookup (buildPosDictFrom l i d) x =
      optOr (alookup d x) (if x ∈ l then some (i + firstIdx l x) else none) := by
  intro l
  induction l with
  | nil =>
    intro i d _ _ x
    simp only [buildPosDictFrom, List.not_mem_nil, if_neg, ite_false]
    cases alookup d x <;> rfl
  | cons a rest ih =>
    intro i d hfresh hnd x
    simp only [buildPosDictFrom]
    have hnone : alookup d a = none := hfresh a (List.mem_cons_self a rest)
    have hset : dictSet d a i = d ++ [(a, i)] := by
      unfold dictSet
      rw [hnone]
      simp
    rw [hset]
    rw [List.nodup_cons] at hnd
    rw [ih (i + 1) (d ++ [(a, i)])
      (by
        intro y hy
        rw [alookup_append]
        have h1 : alookup d y = none := hfresh y (List.mem_cons_of_mem a hy)
        have h2 : alookup [(a, i)] y = none := by
          have : ¬ a = y := fun he => hnd.1 (he ▸ hy)
          simp [alookup, this]
        rw [h1, h2]
        rfl)
      hnd.2 x]
    rw [alookup_append]
    have hsingle : alookup [(a, i)] x = if a = x then some i else none := by
      simp [alookup]
    rw [hsingle]
    cases halx : alookup d x with
    | some v => rfl
    | none =>
      by_cases hxp : a = x
      · have hx' : x = a := hxp.symm
        simp only [optOr, if_pos hxp, List.mem_cons, hx', true_or, if_true, firstIdx,
          if_pos hxp]
        simp
      · have hx' : ¬ x = a := fun he => hxp he.symm
        simp only [optOr, if_neg hxp, List.mem_cons, hx', false_or, firstIdx]
        by_cases hr : x ∈ rest
        · simp only [hr, if_true, if_neg hxp]
          congr 1
          omega
        · simp [hr]

theorem alookup_buildPosDict (sel : List DocId) (hnd : sel.Nodup) (x : DocId) :
    alookup (buildPosDict sel) x = if x ∈ sel then some (firstIdx sel x) else none := by
  have h := alookup_buildPosDictFrom sel 0 [] (by simp [alookup]) hnd x
  simpa [buildPosDict, alookup, optOr] using h

theorem firstIdx_getElem (sel : List DocId) (hnd : sel.Nodup) :
    ∀ (j : Nat) (hj : j < sel.length), firstIdx sel sel[j] = j := by
  induction sel with
  | nil => intro j hj; simp at hj
  | cons a rest ih =>
    intro j hj
    rw [List.nodup_cons] at hnd
    cases j with
    | zero => simp [firstIdx]
    | succ m =>
      have hm : m < rest.length := by simpa using hj
      rw [List.getElem_cons_succ]
      have ha : ¬ a = rest[m] := fun he => hnd.1 (he ▸ List.getElem_mem hm)
      unfold firstIdx
      rw [if_neg ha, ih hnd.2 m hm]
      omega

theorem finalizePayload_ids (docStore : DocId → Option (String × Meta))
    (fused : List (DocId × ℚ)) (sel : List DocId) (hnd : sel.Nodup) :
    (finalizePayload docStore fused sel).map (fun r => r.id) = sel := by
  unfold finalizePayload
  dsimp only
  have hw : (get_documents_by_ids docStore sel).map
      (fun it => { it with score := (alookup fused it.id).getD 0 }) =
      sel.map (fun i =>
        { id := i, score := (alookup fused i).getD 0,
          document := ((docStore i).map Prod.fst).getD "",
          metadata := ((docStore i).map Prod.snd).getD [] }) := by
    unfold get_documents_by_ids
    rw [List.map_map]
    rfl
  rw [hw]
  have hkey : ∀ (i : Nat) (hi : i < (sel.map (fun i =>
      ({ id := i, score := (alookup fused i).getD 0,
         document := ((docStore i).map Prod.fst).getD "",
         metadata := ((docStore i).map Prod.snd).getD [] } : RetrievalResult))).length),
      posKey (buildPosDict sel) ((sel.map (fun i =>
        ({ id := i, score := (alookup fused i).getD 0,
           document := ((docStore i).map Prod.fst).getD "",
           metadata := ((docStore i).map Prod.snd).getD [] } : RetrievalResult)))[i]) = i := by
    intro i hi
    have hi' : i < sel.length := by simpa using hi
    rw [List.getElem_map]
    unfold posKey
    dsimp only
    rw [alookup_buildPosDict sel hnd]
    rw [if_pos (List.getElem_mem hi')]
    rw [Option.getD_some]
    exact firstIdx_getElem sel hnd i hi'
  have hsorted : pySorted
      (fun a b => decide (posKey (buildPosDict sel) a < posKey (buildPosDict sel) b))
      (sel.map (fun i =>
        ({ id := i, score := (alookup fused i).getD 0,
           document := ((docStore i).map Prod.fst).getD "",
           metadata := ((docStore i).map Prod.snd).getD [] } : RetrievalResult))) =
      sel.map (fun i =>
        ({ id := i, score := (alookup fused i).getD 0,
           document := ((docStore i).map Prod.fst).getD "",
           metadata := ((docStore i).map Prod.snd).getD [] } : RetrievalResult)) := by
    apply pySorted_of_sorted
    rw [List.pairwise_iff_getElem]
    intro i j hi hj hij
    rw [hkey i hi, hkey j hj]
    exact decide_eq_false (by omega)
  rw [hsorted, List.map_map]
  have : ((fun r : RetrievalResult => r.id) ∘ (fun i =>
      ({ id := i, score := (alookup fused i).getD 0,
         document := ((docStore i).map Prod.fst).getD "",
         metadata := ((docStore i).map Prod.snd).getD [] } : RetrievalResult))) =
      fun i : DocId => i := rfl
  rw [this]
  exact List.map_id' sel

/-! ### Remaining fusion helper lemmas -/

theorem perm_of_nodup_of_mem_iff {l1 l2 : List DocId}
    (h1 : l1.Nodup) (h2 : l2.Nodup) (h : ∀ x, x ∈ l1 ↔ x ∈ l2) : List.Perm l1 l2 := by
  rw [List.perm_iff_count]
  intro a
  by_cases ha : a ∈ l1
  · rw [List.count_eq_one_of_mem h1 ha, List.count_eq_one_of_mem h2 ((h a).mp ha)]
  · rw [List.count_eq_zero_of_not_mem ha,
      List.count_eq_zero_of_not_mem (fun hc => ha ((h a).mpr hc))]

theorem alookup_map_self (f : DocId → ℚ) :
    ∀ (l : List DocId) (x : DocId), x ∈ l →
      alookup (l.map (fun id => (id, f id))) x = some (f x) := by
  intro l
  induction l with
  | nil => intro x hx; cases hx
  | cons a rest ih =>
    intro x hx
    by_cases hax : a = x
    · simp [alookup, hax]
    · have : x ∈ rest := by
        rcases List.mem_cons.mp hx with h | h
        · exact absurd h.symm hax
        · exact h
      simpa [alookup, hax] using ih x this

theorem keys_rrf (d : List (DocId × Nat)) (k : Nat) :
    (rrf d k).map Prod.fst = d.map Prod.fst := by
  unfold rrf
  rw [List.map_map]
  rfl

theorem keys_rrf_fuse (dense sparse : List (DocId × ℚ)) (k : Nat) (order : List DocId) :
    (rrf_fuse dense sparse k order).map Prod.fst = order := by
  unfold rrf_fuse
  rw [List.map_map]
  exact List.map_id' order

/-! ### Claim theorems -/

/-- Claim C1, as stated, is false on the code: here the dense branch succeeds
with one candidate and the sparse branch raises, yet `retrieve` propagates the
error instead of degrading to dense-only results with a flag. -/
theorem c1_counterexample :
    retrieve embStore0 docStore0 simOf0 cfg0 (.ok [("a", 0)]) (.error "boom") ["a"] (some 1) =
      .error "boom" := rfl

/-- Claim C1 (amended): `retrieve` calls `_dense_search` and then
`_sparse_search` with no `try`/`except`, so an error raised by the dense
branch, or by the sparse branch after a successful dense branch, propagates to
the caller unchanged; no degraded-mode result is ever produced, and when both
branches would fail the call raises (the dense branch's error, since dense runs
first). -/
theorem retrieve_propagates_branch_errors (embStore : DocId → Option (List ℚ))
    (docStore : DocId → Option (String × Meta)) (simOf : List (List ℚ) → Nat → Nat → ℚ)
    (cfg : RetrieverConfig) (sparse_res : Except String (List (DocId × ℚ)))
    (dense : List (DocId × ℚ)) (set_order : List DocId) (k : Option Int) :
    (∀ e, retrieve embStore docStore simOf cfg (.error e) sparse_res set_order k = .error e) ∧
    (∀ e, retrieve embStore docStore simOf cfg (.ok dense) (.error e) set_order k = .error e) :=
  ⟨fun _ => rfl, fun _ => rfl⟩

/-- Claim C3, as stated, is false on the code: for branch lists producing the
tied fused scores `A = B = 1/61`, both `["A","B"]` and `["B","A"]` are
admissible iteration orders of `set(dense_rank) | set(sparse_rank)`, and the
derived descending list differs between them, so the order of equal-score
documents is not a fixed function of the two input lists. -/
theorem c3_counterexample :
    ValidSetOrder dense3 sparse3 ["A", "B"] ∧ ValidSetOrder dense3 sparse3 ["B", "A"] ∧
    rankedIdsOf (rrf_fuse dense3 sparse3 60 ["A", "B"]) = ["A", "B"] ∧
    rankedIdsOf (rrf_fuse dense3 sparse3 60 ["B", "A"]) = ["B", "A"] := by
  with_unfolding_all decide

/-- Claim C3 (amended): equal fused scores are tie-broken by the fused map's
insertion order, i.e. the iteration order of the Python set
`set(dense_rank) | set(sparse_rank)`, which is not a fixed function of the two
input lists.  Relative to any given iteration order the derived list is
deterministic: it is a permutation of the fused items, its scores are
non-increasing, and the items of each fixed score value keep their iteration
order (Python's `sorted` is stable). -/
theorem rankedIds_stable_wrt_insertion_order (dense sparse : List (DocId × ℚ)) (k : Nat)
    (order : List DocId) :
    List.Perm (pySorted scoreDescBefore (rrf_fuse dense sparse k order))
      (rrf_fuse dense sparse k order) ∧
    List.Chain' (fun a b : DocId × ℚ => b.2 ≤ a.2)
      (pySorted scoreDescBefore (rrf_fuse dense sparse k order)) ∧
    ∀ s : ℚ, (pySorted scoreDescBefore (rrf_fuse dense sparse k order)).filter
        (fun p => decide (p.2 = s)) =
      (rrf_fuse dense sparse k order).filter (fun p => decide (p.2 = s)) :=
  ⟨pySorted_perm _ _, pySorted_score_desc _, fun s => pySorted_filter_score s _⟩

/-- Claim C5's no-crash fallback, as stated, is false on the code: with a
one-candidate pool whose embedding is absent from the index, `_mmr_select`
raises (`KeyError` from `id_to_emb[i]`) instead of falling back to the
truncated fused ranking. -/
theorem c5_counterexample :
    mmr_select (fun _ => none) simOf0 ["a"] [("a", 1)] 1 (7 / 10) = .error "KeyError" := rfl

/-- Claim C5 (amended): if any candidate id's embedding is missing from the
dense index, `_mmr_select` raises a `KeyError` (the comprehension
`[id_to_emb[i] for i in batch_ids]` hits the absent key) rather than falling
back; the `ranked_ids[:k]` truncation fallback is reachable only when the
assembled embedding matrix is not 2-D, and nothing is logged or flagged. -/
theorem mmr_select_raises_on_missing_embedding (embStore : DocId → Option (List ℚ))
    (simOf : List (List ℚ) → Nat → Nat → ℚ) (ranked : List DocId)
    (rel_scores : List (DocId × ℚ)) (k : Int) (lam : ℚ)
    (hne : ranked ≠ []) (hmiss : ∃ id ∈ ranked, embStore id = none) :
    mmr_select embStore simOf ranked rel_scores k lam = .error "KeyError" :=
  mmr_select_missing_embedding embStore simOf ranked rel_scores k lam hne hmiss

/-- Witness for the amended C5 theorem at a concrete input. -/
theorem c5_witness :
    ((["b"] : List DocId) ≠ [] ∧ ∃ id ∈ (["b"] : List DocId),
      (fun _ : DocId => (none : Option (List ℚ))) id = none) ∧
    mmr_select (fun _ => none) simOf0 ["b"] [("b", 1)] 2 (1 / 2) = .error "KeyError" :=
  ⟨⟨by decide, ⟨"b", by decide, rfl⟩⟩,
    mmr_select_raises_on_missing_embedding (fun _ => none) simOf0 ["b"] [("b", 1)] 2 (1 / 2)
      (by decide) ⟨"b", by decide, rfl⟩⟩

/-- Claim C6, as stated, is false on the code: here the selected id `a` has no
payload in the collection, yet the final result does not drop it — it contains
a placeholder record with empty document text and empty metadata. -/
theorem c6_counterexample :
    retrieve embStore0 (fun _ => none) simOf0 cfg0 (.ok [("a", 0)]) (.ok [("a", 5)]) ["a"]
        (some 1) =
      .ok [{ id := "a", score := 2 / 61, document := "", metadata := [] }] := by
  with_unfolding_all rfl

/-- Claim C6 (amended): `_get_documents_by_ids` iterates over the requested
ids (not over the ids the collection returned), emitting one record per
requested id in order with `doc_map.get(i, "")` / `meta_map.get(i, {})`
defaults; an id whose payload cannot be fetched is therefore not dropped but
kept as a placeholder record with empty document text and empty metadata, and
the result is never shorter than the request. -/
theorem get_documents_keeps_missing_ids (docStore : DocId → Option (String × Meta))
    (ids : List DocId) :
    ((get_documents_by_ids docStore ids).map (fun r => r.id) = ids) ∧
    ∀ i ∈ ids, docStore i = none →
      ({ id := i, score := 0, document := "", metadata := [] } : RetrievalResult) ∈
        get_documents_by_ids docStore ids := by
  constructor
  · unfold get_documents_by_ids
    rw [List.map_map]
    exact List.map_id' ids
  · intro i hi hdoc
    apply List.mem_map.mpr
    refine ⟨i, hi, ?_⟩
    rw [hdoc]
    rfl

/-- Witness for the amended C6 theorem at a concrete input. -/
theorem c6_witness :
    ((get_documents_by_ids (fun _ => none) ["x"]).map (fun r => r.id) = ["x"]) ∧
    ({ id := "x", score := 0, document := "", metadata := [] } : RetrievalResult) ∈
      get_documents_by_ids (fun _ => none) ["x"] :=
  ⟨(get_documents_keeps_missing_ids (fun _ => none) ["x"]).1,
    (get_documents_keeps_missing_ids (fun _ => none) ["x"]).2 "x" (by decide) rfl⟩

/-- Claim C7, as stated, is false on the code: with `cfg.final_k = 1` and a
two-document scenario, `retrieve(query, k=0)` raises no configuration error —
it silently substitutes the configured default result count (Python
`k or self.cfg.final_k` treats `0` as falsy) and returns one successful
result. -/
theorem c7_counterexample :
    retrieve embStore0 docStore0 simOf0 cfg1 (.ok [("a", 0)]) (.ok [("b", 1)]) ["a", "b"]
        (some 0) =
      .ok [{ id := "a", score := 1 / 61, document := "doc a", metadata := [] }] := by
  with_unfolding_all rfl

/-- Claim C7 (amended): `retrieve` performs no validation of `k`.  Because
`final_k = k or self.cfg.final_k`, a call with `k = 0` behaves exactly like a
call with `k = None`: both silently substitute the configured default result
count, and no configuration error is raised. -/
theorem retrieve_k_zero_uses_default (embStore : DocId → Option (List ℚ))
    (docStore : DocId → Option (String × Meta)) (simOf : List (List ℚ) → Nat → Nat → ℚ)
    (cfg : RetrieverConfig) (dense_res sparse_res : Except String (List (DocId × ℚ)))
    (set_order : List DocId) :
    retrieve embStore docStore simOf cfg dense_res sparse_res set_order (some 0) =
      retrieve embStore docStore simOf cfg dense_res sparse_res set_order none := rfl

/-- Claim C10: within one branch result list, a `DocId` occurring at several
positions is ranked by its earliest (1-based) position: the rank dict maps it
to `1 + firstIdx`, and its RRF contribution is `1/(k_rrf + that rank)`; later
duplicate occurrences never change (in particular never lower) its score. -/
theorem rrf_duplicate_keeps_best_rank (results : List (DocId × ℚ)) (k : Nat) (id : DocId)
    (h : id ∈ results.map Prod.fst) :
    alookup (buildRank results) id = some (1 + firstIdx (results.map Prod.fst) id) ∧
    alookup (rrf (buildRank results) k) id =
      some (1 / ((k : ℚ) + ((1 + firstIdx (results.map Prod.fst) id : Nat) : ℚ))) := by
  constructor
  · rw [alookup_buildRank, if_pos h]
  · rw [alookup_rrf, alookup_buildRank, if_pos h]
    rfl

/-- Witness for C10: in `[("A",5),("B",3),("A",9)]` the id `A` occurs at
positions 1 and 3; its rank is 1 and its RRF contribution `1/61`. -/
theorem c10_witness :
    ("A" ∈ results10.map Prod.fst) ∧
    alookup (buildRank results10) "A" = some 1 ∧
    alookup (rrf (buildRank results10) 60) "A" = some (1 / 61) := by
  refine ⟨by decide, ?_, ?_⟩
  · rw [(rrf_duplicate_keeps_best_rank results10 60 "A" (by decide)).1]
    decide
  · rw [(rrf_duplicate_keeps_best_rank results10 60 "A" (by decide)).2]
    with_unfolding_all decide

/-- Claim C4: for every non-empty pool of distinct candidate ids whose
embeddings hydrate at a common dimension, and every `k > 0` (with
`0 ≤ λ ≤ 1` and similarity values bounded by 1, as for the cosine matrix in
the code), `_mmr_select` succeeds and returns an ordered sequence of exactly
`min(k, pool size)` distinct candidate ids; and the final-payload steps of
`retrieve` (batched fetch, score attachment, and the sort keyed on MMR
positions in lines 149–158) return the records in exactly that selection
order, never re-sorted by score. -/
theorem mmr_select_min_k_distinct_order_preserved (embStore : DocId → Option (List ℚ))
    (simOf : List (List ℚ) → Nat → Nat → ℚ) (docStore : DocId → Option (String × Meta))
    (ranked : List DocId) (rel_scores fused : List (DocId × ℚ)) (k : Int) (lam : ℚ)
    (dim : Nat)
    (hne : ranked ≠ []) (hnd : ranked.Nodup) (hk : 0 < k)
    (hyd : ∀ id ∈ ranked, (embStore id).isSome ∧ ((embStore id).getD []).length = dim)
    (hlam0 : 0 ≤ lam) (hlam1 : lam ≤ 1) (hsim : ∀ E i j, simOf E i j ≤ 1) :
    ∃ sel, mmr_select embStore simOf ranked rel_scores k lam = .ok sel ∧
      sel.length = min k.toNat ranked.length ∧ sel.Nodup ∧ (∀ x ∈ sel, x ∈ ranked) ∧
      (finalizePayload docStore fused sel).map (fun r => r.id) = sel := by
  obtain ⟨sel, h1, h2, h3, h4⟩ :=
    mmr_select_count embStore simOf ranked rel_scores k lam dim hne hnd hk hyd hlam0 hlam1 hsim
  exact ⟨sel, h1, h2, h3, h4, finalizePayload_ids docStore fused sel h3⟩

/-- Witness for C4 at a concrete two-document pool with `k = 1`, `λ = 0.7`,
2-dimensional embeddings, and the zero similarity oracle. -/
theorem c4_witness :
    ((0 : Int) < 1 ∧ (["a", "b"] : List DocId).Nodup ∧ (["a", "b"] : List DocId) ≠ []) ∧
    ∃ sel, mmr_select embStore0 simOf0 ["a", "b"] [("a", 1), ("b", 0)] 1 (7 / 10) = .ok sel ∧
      sel.length = min (1 : Int).toNat (["a", "b"] : List DocId).length ∧ sel.Nodup ∧
      (∀ x ∈ sel, x ∈ (["a", "b"] : List DocId)) ∧
      (finalizePayload docStore0 [("a", 1), ("b", 0)] sel).map (fun r => r.id) = sel :=
  ⟨⟨by decide, by decide, by decide⟩,
    mmr_select_min_k_distinct_order_preserved embStore0 simOf0 docStore0 ["a", "b"]
      [("a", 1), ("b", 0)] [("a", 1), ("b", 0)] 1 (7 / 10) 2
      (by decide) (by decide) (by decide)
      (by decide)
      (by with_unfolding_all decide) (by with_unfolding_all decide)
      (fun _ _ _ => zero_le_one)⟩

/-- Witness for C8 at a concrete two-document pool already sorted by fused
score, with `k = 2` and the zero similarity oracle. -/
theorem c8_witness :
    ((["a", "b"] : List DocId) ≠ [] ∧ (0 : Int) < 2 ∧
      List.Chain' (fun a b : ℚ => b ≤ a) (relRawOf ["a", "b"] [("a", 1), ("b", 0)])) ∧
    mmr_select embStore0 simOf0 ["a", "b"] [("a", 1), ("b", 0)] 2 1 =
      .ok ((["a", "b"] : List DocId).take
        (min (2 : Int).toNat (["a", "b"] : List DocId).length)) :=
  ⟨⟨by decide, by decide, by
      have h : relRawOf ["a", "b"] [("a", 1), ("b", 0)] = [1, 0] := rfl
      rw [h]
      exact List.chain'_pair.mpr (by with_unfolding_all decide)⟩,
    mmr_select_lambda_one embStore0 simOf0 ["a", "b"] [("a", 1), ("b", 0)] 2 2
      (by decide) (by decide) (by decide)
      (by
        have h : relRawOf ["a", "b"] [("a", 1), ("b", 0)] = [1, 0] := rfl
        rw [h]
        exact List.chain'_pair.mpr (by with_unfolding_all decide))⟩

/-- Claim C9: for every pair of branch result lists and every admissible
iteration order of `set(dense_rank) | set(sparse_rank)`, the fused score map
contains every `DocId` returned by either branch exactly once, each fused
score is ≥ 0, an id returned by neither branch is absent from the map, and an
id missing from one branch receives the literal zero contribution
(`.get(doc_id, 0.0)`) from that branch — if it is missing from the sparse
branch, its fused entry is its dense RRF contribution plus `0`, and if it is
missing from the dense branch, its fused entry is `0` plus its sparse RRF
contribution. -/
theorem rrf_fuse_coverage (dense sparse : List (DocId × ℚ)) (k : Nat) (order : List DocId)
    (h : ValidSetOrder dense sparse order) :
    (∀ id, (id ∈ dense.map Prod.fst ∨ id ∈ sparse.map Prod.fst) →
      ((rrf_fuse dense sparse k order).map Prod.fst).count id = 1) ∧
    (∀ p ∈ rrf_fuse dense sparse k order, 0 ≤ p.2) ∧
    (∀ id, id ∉ dense.map Prod.fst → id ∉ sparse.map Prod.fst →
      id ∉ (rrf_fuse dense sparse k order).map Prod.fst) ∧
    (∀ id ∈ order, id ∉ sparse.map Prod.fst →
      alookup (rrf_fuse dense sparse k order) id =
        some (((alookup (rrf (buildRank dense) k) id).getD 0) + 0)) ∧
    (∀ id ∈ order, id ∉ dense.map Prod.fst →
      alookup (rrf_fuse dense sparse k order) id =
        some ((0 : ℚ) + ((alookup (rrf (buildRank sparse) k) id).getD 0))) := by
  obtain ⟨hnd, hsub1, hsub2⟩ := h
  have hkeys := keys_rrf_fuse dense sparse k order
  refine ⟨?_, ?_, ?_, ?_, ?_⟩
  · intro id hid
    rw [hkeys]
    apply List.count_eq_one_of_mem hnd
    apply hsub2
    unfold unionKeys
    rw [List.mem_append, mem_keys_buildRank, mem_keys_buildRank]
    exact hid
  · intro p hp
    unfold rrf_fuse at hp
    obtain ⟨id, _, he⟩ := List.mem_map.mp hp
    rw [← he]
    exact add_nonneg (rrf_contribution_nonneg _ k id) (rrf_contribution_nonneg _ k id)
  · intro id hd hs
    rw [hkeys]
    intro hmem
    have := hsub1 id hmem
    unfold unionKeys at this
    rw [List.mem_append, mem_keys_buildRank, mem_keys_buildRank] at this
    rcases this with h | h
    · exact hd h
    · exact hs h
  · intro id hid hs
    have hmap : alookup (rrf_fuse dense sparse k order) id =
        some (((alookup (rrf (buildRank dense) k) id).getD 0) +
          ((alookup (rrf (buildRank sparse) k) id).getD 0)) := by
      unfold rrf_fuse
      exact alookup_map_self _ order id hid
    rw [hmap]
    have hnone : alookup (rrf (buildRank sparse) k) id = none := by
      rw [alookup_eq_none_iff, keys_rrf, mem_keys_buildRank]
      exact hs
    rw [hnone]
    rfl
  · intro id hid hd
    have hmap : alookup (rrf_fuse dense sparse k order) id =
        some (((alookup (rrf (buildRank dense) k) id).getD 0) +
          ((alookup (rrf (buildRank sparse) k) id).getD 0)) := by
      unfold rrf_fuse
      exact alookup_map_self _ order id hid
    rw [hmap]
    have hnone : alookup (rrf (buildRank dense) k) id = none := by
      rw [alookup_eq_none_iff, keys_rrf, mem_keys_buildRank]
      exact hd
    rw [hnone]
    rfl

/-- Witness for C9 at the concrete branches of the tie scenario, with the
iteration order `["A", "B"]`. -/
theorem c9_witness :
    ValidSetOrder dense3 sparse3 ["A", "B"] ∧
    ((∀ id, (id ∈ dense3.map Prod.fst ∨ id ∈ sparse3.map Prod.fst) →
      ((rrf_fuse dense3 sparse3 60 ["A", "B"]).map Prod.fst).count id = 1) ∧
    (∀ p ∈ rrf_fuse dense3 sparse3 60 ["A", "B"], 0 ≤ p.2) ∧
    (∀ id, id ∉ dense3.map Prod.fst → id ∉ sparse3.map Prod.fst →
      id ∉ (rrf_fuse dense3 sparse3 60 ["A", "B"]).map Prod.fst) ∧
    (∀ id ∈ (["A", "B"] : List DocId), id ∉ sparse3.map Prod.fst →
      alookup (rrf_fuse dense3 sparse3 60 ["A", "B"]) id =
        some (((alookup (rrf (buildRank dense3) 60) id).getD 0) + 0)) ∧
    (∀ id ∈ (["A", "B"] : List DocId), id ∉ dense3.map Prod.fst →
      alookup (rrf_fuse dense3 sparse3 60 ["A", "B"]) id =
        some ((0 : ℚ) + ((alookup (rrf (buildRank sparse3) 60) id).getD 0)))) :=
  ⟨by decide, rrf_fuse_coverage dense3 sparse3 60 ["A", "B"] (by decide)⟩

theorem sorted_desc_eq_of_perm (l1 l2 : List (DocId × ℚ)) (hp : List.Perm l1 l2)
    (hs1 : List.Chain' (fun a b : DocId × ℚ => b.2 ≤ a.2) l1)
    (hs2 : List.Chain' (fun a b : DocId × ℚ => b.2 ≤ a.2) l2)
    (hd2 : l2.Pairwise (fun a b : DocId × ℚ => a.2 ≠ b.2)) : l1 = l2 := by
  letI : IsTrans (DocId × ℚ) (fun a b : DocId × ℚ => b.2 ≤ a.2) :=
    ⟨fun _ _ _ hab hbc => le_trans hbc hab⟩
  haveI : IsAntisymm (DocId × ℚ) (fun a b : DocId × ℚ => b.2 < a.2) :=
    ⟨fun _ _ h1 h2 => absurd (lt_trans h1 h2) (lt_irrefl _)⟩
  have hd1 : l1.Pairwise (fun a b : DocId × ℚ => a.2 ≠ b.2) :=
    (hp.pairwise_iff (fun h => Ne.symm h)).mpr hd2
  have hp1 : l1.Pairwise (fun a b : DocId × ℚ => b.2 < a.2) :=
    ((List.chain'_iff_pairwise.mp hs1).and hd1).imp
      (fun h => lt_of_le_of_ne h.1 (Ne.symm h.2))
  have hp2 : l2.Pairwise (fun a b : DocId × ℚ => b.2 < a.2) :=
    ((List.chain'_iff_pairwise.mp hs2).and hd2).imp
      (fun h => lt_of_le_of_ne h.1 (Ne.symm h.2))
  exact List.eq_of_perm_of_sorted hp hp1 hp2

/-- Claim C2's expected values, as stated, are false on the code: at the
spec's own formulas, `B = 1/62 + 1/61 ≈ 0.03252` exceeds
`A = 1/61 + 1/63 ≈ 0.03227` (the spec's `≈ 0.03226` for B is a
miscalculation), so the descending fused order under the valid iteration
order `["A","B","C","D"]` is not `A, B, D, C`. -/
theorem c2_counterexample :
    ValidSetOrder dense2 sparse2 ["A", "B", "C", "D"] ∧
    (1 / 61 + 1 / 63 : ℚ) < 1 / 62 + 1 / 61 ∧
    rankedIdsOf (rrf_fuse dense2 sparse2 60 ["A", "B", "C", "D"]) ≠ ["A", "B", "D", "C"] := by
  refine ⟨by decide, by norm_num, ?_⟩
  have hfuse : rrf_fuse dense2 sparse2 60 ["A", "B", "C", "D"] =
      [("A", rrfTerm 3 + rrfTerm 1), ("B", rrfTerm 1 + rrfTerm 2),
        ("C", 0 + rrfTerm 3), ("D", rrfTerm 2 + 0)] := rfl
  have hp : List.Perm (pySorted scoreDescBefore (rrf_fuse dense2 sparse2 60 ["A", "B", "C", "D"]))
      [("B", rrfTerm 1 + rrfTerm 2), ("A", rrfTerm 3 + rrfTerm 1),
        ("D", rrfTerm 2 + 0), ("C", 0 + rrfTerm 3)] := by
    refine (pySorted_perm _ _).trans ?_
    rw [hfuse]
    refine (List.Perm.swap _ _ _).trans ?_
    exact (((List.Perm.swap _ _ ([] : List (DocId × ℚ))).cons _).cons _)
  have heq := sorted_desc_eq_of_perm _ _ hp (pySorted_score_desc _)
    (by
      rw [List.chain'_cons, List.chain'_cons, List.chain'_pair]
      refine ⟨?_, ?_, ?_⟩ <;> · norm_num [rrfTerm]
    )
    (by
      simp only [List.pairwise_cons, List.mem_cons, List.not_mem_nil, or_false,
        List.Pairwise.nil, and_true]
      norm_num [rrfTerm])
  unfold rankedIdsOf
  rw [heq]
  decide

/-- Claim C2 (amended): for sparse `[(A,1),(B,2),(C,3)]`, dense
`[(B,1),(D,2),(A,3)]` and `k_rrf = 60`, the fused scores are
`A = 1/61 + 1/63 ≈ 0.03227`, `B = 1/62 + 1/61 ≈ 0.03252`, `C = 1/63 ≈ 0.01587`
and `D = 1/62 ≈ 0.01613`, and the descending fused order is `B, A, D, C`
(B first, since its rank pair (2,1) beats A's (1,3)), under every iteration
order of the fused id set. -/
theorem rrf_fuse_concrete_scenario (order : List DocId)
    (h : ValidSetOrder dense2 sparse2 order) :
    alookup (rrf_fuse dense2 sparse2 60 order) "A" = some (1 / 61 + 1 / 63) ∧
    alookup (rrf_fuse dense2 sparse2 60 order) "B" = some (1 / 62 + 1 / 61) ∧
    alookup (rrf_fuse dense2 sparse2 60 order) "C" = some (1 / 63) ∧
    alookup (rrf_fuse dense2 sparse2 60 order) "D" = some (1 / 62) ∧
    rankedIdsOf (rrf_fuse dense2 sparse2 60 order) = ["B", "A", "D", "C"] := by
  have hu : unionKeys dense2 sparse2 = ["B", "D", "A", "A", "B", "C"] := rfl
  have hperm : List.Perm order ["A", "B", "C", "D"] := by
    obtain ⟨hnd, hsub1, hsub2⟩ := h
    apply perm_of_nodup_of_mem_iff hnd (by decide)
    intro x
    constructor
    · intro hx
      have hm := hsub1 x hx
      rw [hu] at hm
      simp only [List.mem_cons, List.not_mem_nil, or_false] at hm ⊢
      tauto
    · intro hx
      apply hsub2
      rw [hu]
      simp only [List.mem_cons, List.not_mem_nil, or_false] at hx ⊢
      tauto
  have hfuse : rrf_fuse dense2 sparse2 60 order = order.map (fun doc_id => (doc_id,
      ((alookup (rrf (buildRank dense2) 60) doc_id).getD 0) +
      ((alookup (rrf (buildRank sparse2) 60) doc_id).getD 0))) := rfl
  refine ⟨?_, ?_, ?_, ?_, ?_⟩
  · rw [hfuse, alookup_map_self _ order "A" (hperm.mem_iff.mpr (by decide))]
    have hv : ((alookup (rrf (buildRank dense2) 60) "A").getD 0) +
        ((alookup (rrf (buildRank sparse2) 60) "A").getD 0) = rrfTerm 3 + rrfTerm 1 := rfl
    rw [hv]
    norm_num [rrfTerm]
  · rw [hfuse, alookup_map_self _ order "B" (hperm.mem_iff.mpr (by decide))]
    have hv : ((alookup (rrf (buildRank dense2) 60) "B").getD 0) +
        ((alookup (rrf (buildRank sparse2) 60) "B").getD 0) = rrfTerm 1 + rrfTerm 2 := rfl
    rw [hv]
    norm_num [rrfTerm]
  · rw [hfuse, alookup_map_self _ order "C" (hperm.mem_iff.mpr (by decide))]
    have hv : ((alookup (rrf (buildRank dense2) 60) "C").getD 0) +
        ((alookup (rrf (buildRank sparse2) 60) "C").getD 0) = 0 + rrfTerm 3 := rfl
    rw [hv]
    norm_num [rrfTerm]
  · rw [hfuse, alookup_map_self _ order "D" (hperm.mem_iff.mpr (by decide))]
    have hv : ((alookup (rrf (buildRank dense2) 60) "D").getD 0) +
        ((alookup (rrf (buildRank sparse2) 60) "D").getD 0) = rrfTerm 2 + 0 := rfl
    rw [hv]
    norm_num [rrfTerm]
  · unfold rankedIdsOf
    have hperm2 : List.Perm order ["B", "A", "D", "C"] := hperm.trans (by decide)
    have heval : (["B", "A", "D", "C"] : List DocId).map (fun doc_id => (doc_id,
        ((alookup (rrf (buildRank dense2) 60) doc_id).getD 0) +
        ((alookup (rrf (buildRank sparse2) 60) doc_id).getD 0))) =
        [("B", rrfTerm 1 + rrfTerm 2), ("A", rrfTerm 3 + rrfTerm 1),
          ("D", rrfTerm 2 + 0), ("C", 0 + rrfTerm 3)] := rfl
    have hp : List.Perm (pySorted scoreDescBefore (rrf_fuse dense2 sparse2 60 order))
        [("B", rrfTerm 1 + rrfTerm 2), ("A", rrfTerm 3 + rrfTerm 1),
          ("D", rrfTerm 2 + 0), ("C", 0 + rrfTerm 3)] := by
      refine (pySorted_perm _ _).trans ?_
      rw [hfuse]
      exact (hperm2.map _).trans (heval ▸ List.Perm.refl _)
    have heq := sorted_desc_eq_of_perm _ _ hp (pySorted_score_desc _)
      (by
        rw [List.chain'_cons, List.chain'_cons, List.chain'_pair]
        refine ⟨?_, ?_, ?_⟩ <;> · norm_num [rrfTerm]
      )
      (by
        simp only [List.pairwise_cons, List.mem_cons, List.not_mem_nil, or_false,
          List.Pairwise.nil, and_true]
        norm_num [rrfTerm])
    rw [heq]
    rfl

/-- Witness for the amended C2 theorem at the iteration order
`["A","B","C","D"]`. -/
theorem c2_witness :
    ValidSetOrder dense2 sparse2 ["A", "B", "C", "D"] ∧
    rankedIdsOf (rrf_fuse dense2 sparse2 60 ["A", "B", "C", "D"]) = ["B", "A", "D", "C"] :=
  ⟨by decide, (rrf_fuse_concrete_scenario ["A", "B", "C", "D"] (by decide)).2.2.2.2⟩
